import Mathlib

/-!
Verification development for the `serini` crate: a serde-based INI codec.

The embedding below translates `src/ser.rs` (serializer), `src/de.rs`
(parser and deserializer) and the relevant serde trait semantics into
executable Lean definitions.  Strings are modelled as `List Char`; machine
integers (i64) as `Int` with explicit bound checks mirroring
`i64::from_str`'s range check.  The crate's `Error` enum lives in
`src/error.rs`, which is declared by `lib.rs` but not present in the
sources; its variants are modelled from the spec's error taxonomy.
-/

abbrev Str := List Char

/-- Coercion from Lean string literals to the character-list model. -/
def strL (s : String) : Str := s.data

/-- The whitespace predicate backing `str::trim`: Rust's
`char::is_whitespace`, i.e. the 25 code points with the Unicode
White_Space property (U+0009-U+000D, U+0020, U+0085, U+00A0, U+1680,
U+2000-U+200A, U+2028, U+2029, U+202F, U+205F, U+3000). -/
def isWsChar (c : Char) : Bool :=
  c.toNat == 9 || c.toNat == 10 || c.toNat == 11 || c.toNat == 12 || c.toNat == 13 ||
  c.toNat == 32 || c.toNat == 133 || c.toNat == 160 || c.toNat == 5760 ||
  (decide (8192 ≤ c.toNat) && decide (c.toNat ≤ 8202)) ||
  c.toNat == 8232 || c.toNat == 8233 || c.toNat == 8239 || c.toNat == 8287 ||
  c.toNat == 12288

/-- A character usable at the edge of a rendered value: either not
whitespace at all, or one of the control characters the codec escapes
(which therefore never reach `str::trim` literally). -/
def edgeOk (c : Char) : Bool :=
  !isWsChar c || c == '\n' || c == '\r' || c == '\t'

/-- `str::len` of the model string: its UTF-8 byte count. -/
def utf8Len (s : Str) : Nat := s.foldl (fun n c => n + c.utf8Size) 0

/-- Left half of `str::trim`. -/
def trimLeft (l : Str) : Str := l.dropWhile isWsChar

/-- Right half of `str::trim`. -/
def trimRight (l : Str) : Str := (l.reverse.dropWhile isWsChar).reverse

/-- `str::trim`: strip whitespace from both ends. -/
def trimStr (l : Str) : Str := trimRight (trimLeft l)

/-- Split a character list at every occurrence of `c` (the pieces do not
contain `c`; `n` separators yield `n+1` pieces). -/
def splitChar (c : Char) : Str → List Str
  | [] => [[]]
  | x :: xs =>
    if x = c then [] :: splitChar c xs
    else
      match splitChar c xs with
      | [] => [[x]]
      | h :: t => (x :: h) :: t

/-- `str::lines`: split on `'\n'`, with no trailing empty line when the
text ends in a newline (and no lines at all for empty text).  Trailing
`'\r'` stripping is subsumed by the parser's per-line `trim`. -/
def linesOf (s : Str) : List Str :=
  if s = [] then []
  else if s.getLast? = some '\n' then (splitChar '\n' s).dropLast
  else splitChar '\n' s

/-- `str::replace` with a single-character pattern: left-to-right scan,
replacements are not rescanned. -/
def replace1 (c : Char) (rep : Str) : Str → Str
  | [] => []
  | x :: xs => if x = c then rep ++ replace1 c rep xs else x :: replace1 c rep xs

/-- `str::replace` with a two-character pattern: left-to-right scan over
non-overlapping occurrences, replacements are not rescanned. -/
def replace2 (c d : Char) (rep : Str) : Str → Str
  | [] => []
  | [x] => [x]
  | x :: y :: xs =>
    if x = c ∧ y = d then rep ++ replace2 c d rep xs
    else x :: replace2 c d rep (y :: xs)

/-- `Serializer::escape_value` (src/ser.rs:539): the chain of `replace`
calls, in source order — backslash first, then `\n`, `\r`, `\t`, `"`,
`;`, `#`. -/
def escape_value (s : Str) : Str :=
  replace1 '#' ['\\', '#']
    (replace1 ';' ['\\', ';']
      (replace1 '"' ['\\', '"']
        (replace1 '\t' ['\\', 't']
          (replace1 '\r' ['\\', 'r']
            (replace1 '\n' ['\\', 'n']
              (replace1 '\\' ['\\', '\\'] s))))))

/-- `Deserializer::unescape_value` (src/de.rs:57): the chain of `replace`
calls, in source order — `\\` first, then `\n`, `\r`, `\t`, `\"`, `\;`,
`\#`. -/
def unescape_value (s : Str) : Str :=
  replace2 '\\' '#' ['#']
    (replace2 '\\' ';' [';']
      (replace2 '\\' '"' ['"']
        (replace2 '\\' 't' ['\t']
          (replace2 '\\' 'r' ['\r']
            (replace2 '\\' 'n' ['\n']
              (replace2 '\\' '\\' ['\\'] s))))))

/-!  Decimal rendering and parsing of integers, mirroring Rust's
`i64::to_string` (canonical decimal, `-` sign) and `i64::from_str`
(optional sign, one or more ASCII digits, range check). -/

/-- A single decimal digit character. -/
def digCh (n : Nat) : Char := Char.ofNat (48 + n)

/-- Fuel-driven decimal digit emission; `renderNat` supplies enough fuel. -/
def natDigitsAux : Nat → Nat → Str → Str
  | 0, _, acc => acc
  | fuel + 1, n, acc =>
    if n < 10 then digCh n :: acc
    else natDigitsAux fuel (n / 10) (digCh (n % 10) :: acc)

/-- Canonical decimal rendering of a natural number (`u64::to_string`). -/
def renderNat (n : Nat) : Str := natDigitsAux (n + 1) n []

/-- Canonical decimal rendering of an `i64` value (`i64::to_string`). -/
def renderInt (n : Int) : Str :=
  if n < 0 then '-' :: renderNat n.natAbs else renderNat n.toNat

/-- ASCII decimal digit test. -/
def isDig (c : Char) : Bool := 48 ≤ c.toNat && c.toNat ≤ 57

/-- Digit-accumulating parse loop shared by the integer `from_str`s. -/
def parseNatAux : Str → Nat → Option Nat
  | [], acc => some acc
  | c :: r, acc =>
    if isDig c then parseNatAux r (acc * 10 + (c.toNat - 48)) else none

/-- Parse an unsigned decimal digit string (no sign handling, nonempty). -/
def parseNatStr (l : Str) : Option Nat :=
  match l with
  | [] => none
  | _ => parseNatAux l 0

/-- `i64::from_str`: optional `+`/`-` sign, then decimal digits, with the
i64 range check. -/
def parseI64 (l : Str) : Option Int :=
  match l with
  | [] => none
  | c :: r =>
    if c = '-' then
      (parseNatStr r).bind fun m => if m ≤ 2 ^ 63 then some (-(m : Int)) else none
    else if c = '+' then
      (parseNatStr r).bind fun m => if m ≤ 2 ^ 63 - 1 then some (m : Int) else none
    else
      (parseNatStr (c :: r)).bind fun m => if m ≤ 2 ^ 63 - 1 then some (m : Int) else none

/-!  The data model traversed by the codec.  `V` is a deep embedding of the
values reachable through serde's `Serialize` calls that matter for the
spec's claims: booleans, i64 integers, strings, chars, options, structs
with named fields ("records"), plus maps, unit enum variants and
sequences (used only by the error-handling claims).  `Ty` is the
corresponding target shape for deserialization. -/

inductive V where
  | bool (b : Bool)
  | int (n : Int)
  | str (s : Str)
  | char (c : Char)
  | opt (o : Option V)
  | record (name : Str) (fields : List (Str × V))
  | vmap (entries : List (V × V))
  | unitVariant (ename vname : Str)
  | seq (elems : List V)

inductive Ty where
  | bool
  | int
  | str
  | char
  | opt (t : Ty)
  | record (name : Str) (fields : List (Str × Ty))

/-- Modelled from the spec: the crate's `Error` enum.  `src/error.rs` is
declared by `lib.rs` but missing from the sources; the spec's §7 taxonomy
gives `UnsupportedFeature(kind)`, `InvalidValue(expected, raw)`,
`MissingField` and `UnsupportedTopLevel`.  `custom` stands for serde's
`Error::custom`-made messages (duplicate field, invalid type). -/
inductive Err where
  | unsupportedFeature (kind : Str)
  | invalidValue (typ value : Str)
  | missingField (field : Str)
  | unsupportedTopLevel
  | custom (msg : Str)
deriving DecidableEq

/-- `StructDetector` (src/ser.rs:288): drives a value through a no-op
serializer and records whether `serialize_struct` was entered.  Options
probe through `serialize_some`; everything else leaves the flag false. -/
def isStructV : V → Bool
  | .record _ _ => true
  | .opt (some v) => isStructV v
  | _ => false

/-- `SectionCollector` (src/ser.rs:33): the first pass of `to_string`.
For a struct it records each field name whose value probes as a struct;
`serialize_some` recurses; all other shapes collect nothing. -/
def collectSections : V → List Str
  | .record _ fs => fs.filterMap fun kv => if isStructV kv.2 then some kv.1 else none
  | .opt (some v) => collectSections v
  | _ => []

/-- The `Serializer` state (src/ser.rs:4): accumulated output, the current
section, and the section names collected by the first pass. -/
structure SState where
  output : Str
  currentSection : Option Str
  sectionNames : List Str

/-- `Serializer::write_commented_key` (src/ser.rs:557). -/
def write_commented_key (st : SState) (key : Str) : SState :=
  { st with output := st.output ++ strL "; " ++ key ++ strL " = \n" }

/-- `Serializer::write_key_value` (src/ser.rs:550). -/
def write_key_value (st : SState) (key value : Str) : SState :=
  { st with output := st.output ++ key ++ strL " = " ++ escape_value value ++ ['\n'] }

mutual

/-- `<&mut Serializer as ser::Serializer>` (src/ser.rs:564): the second
pass.  Scalars push their rendering onto `output`; `serialize_none` and
maps push nothing; unit variants push the variant name
(`serialize_unit_variant` calls `serialize_str(variant)`); sequences fail;
a struct initialises `current_section` when absent and serializes its
fields. -/
def serValue (st : SState) : V → Except Err SState
  | .bool b => .ok { st with output := st.output ++ (if b then strL "true" else strL "false") }
  | .int n => .ok { st with output := st.output ++ renderInt n }
  | .str s => .ok { st with output := st.output ++ s }
  | .char c => .ok { st with output := st.output ++ [c] }
  | .opt none => .ok st
  | .opt (some v) => serValue st v
  | .vmap _ => .ok st
  | .unitVariant _ vn => .ok { st with output := st.output ++ vn }
  | .seq _ => .error (.unsupportedFeature (strL "sequences"))
  | .record _ fs =>
    serFields
      (if st.currentSection = none then { st with currentSection := some [] } else st) fs

/-- `<&mut Serializer as ser::SerializeStruct>::serialize_field`
(src/ser.rs:825), iterated over the struct's fields in declaration order.
A struct-probing field gets a `[key]` header (preceded by a newline when
the output does not already end in one) followed by the output of a fresh
nested serializer; any other field is rendered into a temporary serializer:
empty output means `None`, emitted as `; key = ` unless the key is a
collected section name; nonempty output is written as a `key = value`
line. -/
def serFields (st : SState) : List (Str × V) → Except Err SState
  | [] => .ok st
  | (key, v) :: rest =>
    if isStructV v then
      let st1 :=
        if st.output ≠ [] ∧ st.output.getLast? ≠ some '\n' then
          { st with output := st.output ++ ['\n'] }
        else st
      let st2 := { st1 with output := st1.output ++ '[' :: key ++ strL "]\n" }
      match serValue ⟨[], some key, st.sectionNames⟩ v with
      | .error e => .error e
      | .ok nested => serFields { st2 with output := st2.output ++ nested.output } rest
    else
      match serValue ⟨[], st.currentSection, st.sectionNames⟩ v with
      | .error e => .error e
      | .ok temp =>
        if temp.output = [] then
          if key ∈ st.sectionNames then serFields st rest
          else serFields (write_commented_key st key) rest
        else serFields (write_key_value st key temp.output) rest

end

/-- `to_string` (src/ser.rs:10): run the section-collecting first pass,
then the actual serialization with an empty output and no current
section. -/
def to_string (v : V) : Except Err Str :=
  (serValue ⟨[], none, collectSections v⟩ v).map (·.output)

/-!  The parser (`Deserializer::from_str`, src/de.rs:23).  The
`HashMap<String, HashMap<String, String>>` is modelled as an
insertion-ordered association list with unique keys; `HashMap::insert`
replaces the value of an existing key.  Iteration order of a `HashMap` is
unspecified in Rust; the decoder below only relies on lookups and on
per-field filling semantics that are insensitive to entry order when keys
are unique, so fixing insertion order is sound. -/

abbrev Sec := List (Str × Str)
abbrev Table := List (Str × Sec)

/-- Association-list lookup (models `HashMap::get`). -/
def lookupT : List (Str × α) → Str → Option α
  | [], _ => none
  | (k, v) :: rest, key => if k = key then some v else lookupT rest key

/-- Association-list insert (models `HashMap::insert`: replaces the value
of an existing key, otherwise appends a fresh entry). -/
def insertT : List (Str × α) → Str → α → List (Str × α)
  | [], key, v => [(key, v)]
  | (k, w) :: rest, key, v =>
    if k = key then (key, v) :: rest else (k, w) :: insertT rest key v

/-- `HashMap::contains_key`. -/
def containsT (l : List (Str × α)) (key : Str) : Bool := (lookupT l key).isSome

/-- Parser state: the current section name and the section table. -/
structure PState where
  currentSection : Str
  sections : Table

/-- One iteration of the parser loop (src/de.rs:28-52): trim the line;
skip blanks and `;`/`#` comments; a `[...]`-framed line opens (and, via
`HashMap::insert`, resets) a section; otherwise split at the first `=`,
trim both sides, unescape the value, and store it in the current
section. -/
def parseLine (st : PState) (rawLine : Str) : PState :=
  let line := trimStr rawLine
  if line = [] ∨ line.head? = some ';' ∨ line.head? = some '#' then st
  else if line.head? = some '[' ∧ line.getLast? = some ']' then
    let name := (line.drop 1).dropLast
    { currentSection := name, sections := insertT st.sections name [] }
  else
    match line.findIdx? (· = '=') with
    | some i =>
      let key := trimStr (line.take i)
      let value := unescape_value (trimStr (line.drop (i + 1)))
      match lookupT st.sections st.currentSection with
      | some sec =>
        { st with sections := insertT st.sections st.currentSection (insertT sec key value) }
      | none => st
    | none => st

/-- `Deserializer::from_str` (src/de.rs:23): fold the parser loop over the
input's lines, starting from a table holding an empty root section. -/
def parseTable (input : Str) : Table :=
  (List.foldl parseLine ⟨[], [([], [])]⟩ (linesOf input)).sections

/-!  The decoder.  `deserialize_struct` (src/de.rs:252) picks one of three
map accesses; the derived `Deserialize` impls consume them with the usual
serde visitor semantics: each yielded key is matched against the declared
field names (first match; unknown keys are consumed by `IgnoredAny` and
ignored; a second occurrence of a known field is a duplicate-field error),
the matching field's value is decoded with the field's type, and at the
end a missing field decodes to `None` when its type is an `Option` and to
a missing-field error otherwise. -/

/-- The reading chosen by `deserialize_struct`: `RootStructAccess`
(root fields plus one entry per non-root section) or `StructAccess`
on a single named section. -/
inductive Reading where
  | rootComposite
  | single (section_ : Str)

/-- The decision of `Deserializer::deserialize_struct` (src/de.rs:252),
verbatim: an empty target name or a section named like the target prefers
the first branch; otherwise `RootStructAccess` is used when
`sections.len() > 1 || (sections.len() == 1 && !sections.contains_key(""))`,
else `StructAccess` against the root section. -/
def chooseReading (sections : Table) (name : Str) : Reading :=
  if name = [] ∨ containsT sections name then
    if name = [] then .rootComposite else .single name
  else if sections.length > 1 ∨ (sections.length = 1 ∧ ¬ containsT sections []) then
    .rootComposite
  else .single []

/-- `ValueDeserializer` (src/de.rs:532): coerce one raw string to the
requested shape.  Options unconditionally visit `Some`
(`deserialize_option`, src/de.rs:698); chars require a UTF-8 byte length
of exactly 1 (`deserialize_char`, src/de.rs:660); structs in values fail
(`deserialize_struct`, src/de.rs:759). -/
def coerce : Ty → Str → Except Err V
  | .bool, raw =>
    if raw = strL "true" then .ok (V.bool true)
    else if raw = strL "false" then .ok (V.bool false)
    else .error (.invalidValue (strL "bool") raw)
  | .int, raw =>
    match parseI64 raw with
    | some n => .ok (V.int n)
    | none => .error (.invalidValue (strL "i64") raw)
  | .str, raw => .ok (V.str raw)
  | .char, raw =>
    if utf8Len raw = 1 then
      match raw with
      | c :: _ => .ok (V.char c)
      | [] => .error (.invalidValue (strL "char") raw)
    else .error (.invalidValue (strL "char") raw)
  | .opt t, raw => (coerce t raw).map fun w => V.opt (some w)
  | .record _ _, _ => .error (.unsupportedFeature (strL "structs in values"))

/-- A fill slot: declared field name, declared type, decoded value so
far. -/
abbrev Slot := Str × Ty × Option V

/-- Initial slots for a declared field list. -/
def initSlots (decl : List (Str × Ty)) : List Slot :=
  decl.map fun kt => (kt.1, kt.2, none)

/-- Derived-visitor step for one `StructAccess` entry (key and raw string
value, decoded through `ValueDeserializer`): fill the first slot with a
matching name; error on a duplicate; ignore unknown keys. -/
def fillOneV (e : Str × Str) : List Slot → Except Err (List Slot)
  | [] => .ok []
  | (k, t, cur) :: rest =>
    if e.1 = k then
      match cur with
      | some _ => .error (.custom (strL "duplicate field"))
      | none => (coerce t e.2).map fun v => (k, t, some v) :: rest
    else (fillOneV e rest).map fun rest1 => (k, t, cur) :: rest1

/-- Consume all entries of a `StructAccess` (src/de.rs:495). -/
def fillAllV (slots : List Slot) : List (Str × Str) → Except Err (List Slot)
  | [] => .ok slots
  | e :: es =>
    match fillOneV e slots with
    | .error er => .error er
    | .ok slots1 => fillAllV slots1 es

/-- End-of-map handling of the derived visitor: a still-empty slot yields
`None` for `Option` fields and a missing-field error otherwise (serde's
`missing_field`). -/
def finalizeSlots : List Slot → Except Err (List (Str × V))
  | [] => .ok []
  | (k, t, cur) :: rest =>
    match cur with
    | some v => (finalizeSlots rest).map fun r => (k, v) :: r
    | none =>
      match t with
      | .opt _ => (finalizeSlots rest).map fun r => (k, V.opt none) :: r
      | _ => .error (.missingField k)

/-- Decode a struct's declared fields from one section's key/value pairs
(`StructAccess::new` + the derived visitor loop). -/
def decodeSectionFields (decl : List (Str × Ty)) (kvs : List (Str × Str)) :
    Except Err (List (Str × V)) :=
  match fillAllV (initSlots decl) kvs with
  | .error e => .error e
  | .ok slots => finalizeSlots slots

/-- An entry yielded by `RootStructAccess` (src/de.rs:366): first every
root key/value pair, then every non-root section name. -/
inductive Entry where
  | val (key raw : Str)
  | sec (key : Str)

/-- The key under which an entry is matched against field names. -/
def Entry.key : Entry → Str
  | .val k _ => k
  | .sec k => k

/-- The entries yielded by `RootStructAccess` for a table. -/
def rootEntries (tbl : Table) : List Entry :=
  ((lookupT tbl []).getD []).map (fun kv => Entry.val kv.1 kv.2) ++
    (tbl.filter fun p => p.1 ≠ []).map fun p => Entry.sec p.1

/-- Decode one `RootStructAccess` entry at a field's declared type.  A
value entry goes through `ValueDeserializer`; a section entry goes
through `SectionDeserializer` (src/de.rs:465), which forwards every
request to `deserialize_struct`/`visit_map`, so a struct-typed field
decodes the named section's fields, and any other field type makes the
target's visitor reject the map (serde's invalid-type error). -/
def decodeEntry (tbl : Table) (t : Ty) : Entry → Except Err V
  | .val _ raw => coerce t raw
  | .sec name =>
    match t with
    | .record rn gs =>
      (decodeSectionFields gs ((lookupT tbl name).getD [])).map fun fields =>
        V.record rn fields
    | _ => .error (.custom (strL "invalid type: map"))

/-- Derived-visitor step for one `RootStructAccess` entry. -/
def fillOneR (tbl : Table) (e : Entry) : List Slot → Except Err (List Slot)
  | [] => .ok []
  | (k, t, cur) :: rest =>
    if e.key = k then
      match cur with
      | some _ => .error (.custom (strL "duplicate field"))
      | none => (decodeEntry tbl t e).map fun v => (k, t, some v) :: rest
    else (fillOneR tbl e rest).map fun rest1 => (k, t, cur) :: rest1

/-- Consume all entries of a `RootStructAccess`. -/
def fillAllR (tbl : Table) (slots : List Slot) : List Entry → Except Err (List Slot)
  | [] => .ok slots
  | e :: es =>
    match fillOneR tbl e slots with
    | .error er => .error er
    | .ok slots1 => fillAllR tbl slots1 es

/-- Decode a struct's declared fields from the root-composite reading. -/
def decodeRootFields (tbl : Table) (decl : List (Str × Ty)) :
    Except Err (List (Str × V)) :=
  match fillAllR tbl (initSlots decl) (rootEntries tbl) with
  | .error e => .error e
  | .ok slots => finalizeSlots slots

/-- `<&mut Deserializer as de::Deserializer>` dispatch (src/de.rs:69) for
the target shapes in the model: structs go through `deserialize_struct`'s
reading decision; options visit `Some(self)` (src/de.rs:191); the
remaining scalar methods ignore the input and visit fixed dummies
(`visit_bool(true)`, `visit_i64(0)`, `visit_string(String::new())`,
`visit_char('a')`). -/
def decodeTop (tbl : Table) : Ty → Except Err V
  | .record name fs =>
    (match chooseReading tbl name with
     | .rootComposite => decodeRootFields tbl fs
     | .single s => decodeSectionFields fs ((lookupT tbl s).getD [])).map
      fun fields => V.record name fields
  | .opt t => (decodeTop tbl t).map fun v => V.opt (some v)
  | .bool => .ok (V.bool true)
  | .int => .ok (V.int 0)
  | .str => .ok (V.str [])
  | .char => .ok (V.char 'a')

/-- `from_str` (src/de.rs:13): parse the document, then decode at the
target shape. -/
def from_str (input : Str) (t : Ty) : Except Err V :=
  decodeTop (parseTable input) t

/-!  Derived definitions used in theorem statements. -/

/-- Claim C8's reading of the decision rule, following the spec's words:
an empty target name reads root-composite; a section named like the
target reads that single section; otherwise root-composite when any
non-root section exists; otherwise the root section alone.  To be
compared with `chooseReading`, which is translated from the source. -/
def readingSpec (tbl : Table) (name : Str) : Reading :=
  if name = [] then .rootComposite
  else if containsT tbl name then .single name
  else if tbl.any (fun p => !p.1.isEmpty) then .rootComposite
  else .single []

/-- Characters from which the side-condition-free field keys are drawn:
ASCII letters, digits, `_` and `-`.  Rust struct field identifiers (and
the serde renames used in the crate's examples) fall in this set. -/
def plainKeyChar (c : Char) : Bool :=
  decide ((97 ≤ c.toNat ∧ c.toNat ≤ 122) ∨ (65 ≤ c.toNat ∧ c.toNat ≤ 90) ∨
    (48 ≤ c.toNat ∧ c.toNat ≤ 57) ∨ c.toNat = 95 ∨ c.toNat = 45)

/-- A usable field key: nonempty and made of plain characters. -/
def plainKey (k : Str) : Prop := k ≠ [] ∧ ∀ c ∈ k, plainKeyChar c = true

/-- The invariant the parser maintains: the root section is present and
section names are unique. -/
def TableInv (tbl : Table) : Prop :=
  containsT tbl [] = true ∧ (tbl.map Prod.fst).Nodup

/-- The escape table, in the order unescape's passes run after the
backslash pass: each special character and the letter of its escape
sequence. -/
def escPairs : List (Char × Char) :=
  [('\n', 'n'), ('\r', 'r'), ('\t', 't'), ('"', '"'), (';', ';'), ('#', '#')]

/-- Characterwise escaping with only the pairs in `rem` still escaped
(the others already turned back into their literal character). -/
def escCharRem (rem : List (Char × Char)) (c : Char) : Str :=
  match rem.find? (fun p => p.1 = c) with
  | some p => ['\\', p.2]
  | none => [c]

/-- A chunk is empty or ends in a newline. -/
def nlTerm (l : Str) : Prop := l = [] ∨ l.getLast? = some '\n'

/-- The rendering pushed by the temporary serializer for a present scalar
value (empty for `None`). -/
def renderS : V → Str
  | .bool b => if b then strL "true" else strL "false"
  | .int n => renderInt n
  | .str s => s
  | .char c => [c]
  | .opt (some v) => renderS v
  | _ => []

/-- Scalar values that decode back to themselves: booleans; i64-range
integers; nonempty backslash-free strings whose edge characters survive
`str::trim` (not whitespace, or one of the escaped controls); single-byte
non-backslash characters with the same edge property. -/
inductive ScalOk : Ty → V → Prop
  | bool (b : Bool) : ScalOk .bool (.bool b)
  | int (n : Int) : -(2 ^ 63 : Int) ≤ n → n < 2 ^ 63 → ScalOk .int (.int n)
  | str (s : Str) : s ≠ [] → '\\' ∉ s → (∀ c, s.head? = some c → edgeOk c = true) →
      (∀ c, s.getLast? = some c → edgeOk c = true) → ScalOk .str (.str s)
  | char (c : Char) : edgeOk c = true → c ≠ '\\' → c.utf8Size = 1 → ScalOk .char (.char c)

/-- A scalar-level struct field: a plain scalar, a present optional
scalar, or an absent optional of any type. -/
inductive FldOk : Ty → V → Prop
  | scal {t : Ty} {v : V} : ScalOk t v → FldOk t v
  | optSome {t : Ty} {v : V} : ScalOk t v → FldOk (.opt t) (.opt (some v))
  | optNone (t : Ty) : FldOk (.opt t) (.opt none)

/-- Parallel lists of scalar-level declared fields and values, with
well-formed keys. -/
inductive FieldsOk : List (Str × Ty) → List (Str × V) → Prop
  | nil : FieldsOk [] []
  | cons {k : Str} {t : Ty} {v : V} {ts : List (Str × Ty)} {vs : List (Str × V)} :
      plainKey k → FldOk t v → FieldsOk ts vs →
      FieldsOk ((k, t) :: ts) ((k, v) :: vs)

/-- Parallel lists of record-typed declared fields and values: each is a
plain (non-optional) record whose own fields are scalar-level with
distinct keys. -/
inductive RecFOk : List (Str × Ty) → List (Str × V) → Prop
  | nil : RecFOk [] []
  | cons {a na : Str} {fa : List (Str × Ty)} {ga : List (Str × V)}
      {ts : List (Str × Ty)} {vs : List (Str × V)} :
      plainKey a → FieldsOk fa ga → (fa.map Prod.fst).Nodup → RecFOk ts vs →
      RecFOk ((a, Ty.record na fa) :: ts) ((a, V.record na ga) :: vs)

/-- The chunk `serialize_field` appends for one scalar-level field. -/
def fldChunk (names : List Str) (k : Str) (v : V) : Str :=
  if renderS v = [] then (if k ∈ names then [] else strL "; " ++ k ++ strL " = \n")
  else k ++ strL " = " ++ escape_value (renderS v) ++ ['\n']

/-- Concatenated chunks of a scalar-level field list. -/
def chunksOf (names : List Str) : List (Str × V) → Str
  | [] => []
  | (k, v) :: rest => fldChunk names k v ++ chunksOf names rest

/-- The named fields of a record value. -/
def recFieldsOf : V → List (Str × V)
  | .record _ fs => fs
  | _ => []

/-- Concatenated section blocks of a record-field list: a `[name]` header
followed by the record's scalar chunks, for each field in order. -/
def secBlocks (names : List Str) : List (Str × V) → Str
  | [] => []
  | (a, v) :: rest =>
    ('[' :: a ++ strL "]\n") ++ chunksOf names (recFieldsOf v) ++ secBlocks names rest

/-- The line `serialize_field` emits for one scalar-level field (none for
a suppressed field). -/
def lineOfFld (names : List Str) (k : Str) (v : V) : Option Str :=
  if renderS v = [] then (if k ∈ names then none else some (strL "; " ++ k ++ strL " = "))
  else some (k ++ strL " = " ++ escape_value (renderS v))

/-- The lines of a scalar-level field list. -/
def scalarLines (names : List Str) (fs : List (Str × V)) : List Str :=
  fs.filterMap fun kv => lineOfFld names kv.1 kv.2

/-- The lines of the section blocks. -/
def blockLines (names : List Str) : List (Str × V) → List Str
  | [] => []
  | (a, v) :: rest =>
    ('[' :: a ++ [']']) :: (scalarLines names (recFieldsOf v) ++ blockLines names rest)

/-- Rebuild a text from its lines, each followed by a newline. -/
def textOf : List Str → Str
  | [] => []
  | l :: t => l ++ '\n' :: textOf t

/-- The key/value pairs the parser recovers from one scalar-level field
list: one pair per present field, holding the raw rendering. -/
def presentPairs (fs : List (Str × V)) : List (Str × Str) :=
  fs.filterMap fun kv => if renderS kv.2 = [] then none else some (kv.1, renderS kv.2)

/-- Slot state after the value entries: present fields filled, absent
fields still empty. -/
def scalSlots : List (Str × Ty) → List (Str × V) → List Slot
  | (k, t) :: ts, (_, v) :: vs =>
    (k, t, if renderS v = [] then none else some v) :: scalSlots ts vs
  | _, _ => []

/-- Slot state with every field filled by its value. -/
def filledSlots : List (Str × Ty) → List (Str × V) → List Slot
  | (k, t) :: ts, (_, v) :: vs => (k, t, some v) :: filledSlots ts vs
  | _, _ => []

/-!  Helper lemmas about trimming and table operations. -/

theorem trimLeft_cons_of_not_ws {c : Char} (h : isWsChar c = false) (l : Str) :
    trimLeft (c :: l) = c :: l := by
  simp [trimLeft, List.dropWhile_cons, h]

theorem trimRight_concat_of_not_ws {c : Char} (h : isWsChar c = false) (l : Str) :
    trimRight (l ++ [c]) = l ++ [c] := by
  simp [trimRight, List.dropWhile_cons, h]

theorem lookupT_insertT_self (l : List (Str × α)) (k : Str) (v : α) :
    lookupT (insertT l k v) k = some v := by
  induction l with
  | nil => simp [insertT, lookupT]
  | cons p rest ih =>
    by_cases h : p.1 = k
    · simp [insertT, h, lookupT]
    · simp [insertT, h, lookupT, ih]

theorem lookupT_insertT_ne (l : List (Str × α)) {k k' : Str} (h : k ≠ k') (v : α) :
    lookupT (insertT l k v) k' = lookupT l k' := by
  induction l with
  | nil => simp [insertT, lookupT, h]
  | cons p rest ih =>
    by_cases hp : p.1 = k
    · simp [insertT, hp, lookupT, h]
    · simp only [insertT, hp, if_false, lookupT]
      by_cases hk : p.1 = k'
      · simp [hk]
      · simp [hk, ih]

/-- C4 counterexample: parsing a document whose `[a]` section is opened
twice leaves only the keys parsed after the second header — `x`, parsed
under the first occurrence, is gone from the final table, refuting the
claim that re-opening a section appends. -/
theorem c4_counterexample :
    parseTable (strL "[a]\nx = 1\n[a]\ny = 2\n") =
      [([], []), (strL "a", [(strL "y", strL "2")])] ∧
    (lookupT (parseTable (strL "[a]\nx = 1\n[a]\ny = 2\n")) (strL "a")).map
        (fun sec => lookupT sec (strL "x")) = some none :=
  ⟨rfl, rfl⟩

/-- C4 amended: a `[name]` header line makes `name` the current section
and stores a fresh empty map under `name` via `HashMap::insert`, so
re-opening a section clears every previously parsed key of that section;
after the header the section's map is empty. -/
theorem c4_amended (st : PState) (a : Str) :
    parseLine st ('[' :: (a ++ [']'])) =
      ⟨a, insertT st.sections a []⟩ ∧
    lookupT (insertT st.sections a []) a = some [] := by
  constructor
  · have hline : trimStr ('[' :: (a ++ [']'])) = '[' :: (a ++ [']']) := by
      have h1 : trimLeft ('[' :: (a ++ [']'])) = '[' :: (a ++ [']']) :=
        trimLeft_cons_of_not_ws (by decide) _
      have h2 : trimRight (('[' :: a) ++ [']']) = ('[' :: a) ++ [']'] :=
        trimRight_concat_of_not_ws (by decide) _
      simp only [trimStr, h1]
      simpa using h2
    simp only [parseLine, hline]
    have hhead : ('[' :: (a ++ [']'])).head? = some '[' := rfl
    have hlast : ('[' :: (a ++ [']'])).getLast? = some ']' := by
      have : ('[' :: (a ++ [']'])) = ('[' :: a) ++ [']'] := by simp
      rw [this, List.getLast?_concat]
    simp [hhead, hlast]
  · exact lookupT_insertT_self _ _ _

/-- C5: contrary to the claim (and to the crate's documented limitation
that maps and enums error), `to_string` silently serializes a map as
nothing — both at top level and as a field, where the empty rendering is
emitted as a commented `; key = ` line — and renders a unit enum variant
as its bare name string.  No `UnsupportedFeature` error is produced. -/
theorem c5_map_and_unit_variant_encode :
    to_string (V.vmap [(V.str (strL "k"), V.int 1)]) = .ok [] ∧
    to_string (V.unitVariant (strL "Color") (strL "Red")) = .ok (strL "Red") ∧
    to_string (V.record (strL "Config") [(strL "m", V.vmap [(V.str (strL "k"), V.int 1)])]) =
      .ok (strL "; m = \n") :=
  ⟨rfl, rfl, rfl⟩

/-- C6: contrary to the claim, `to_string` on a bare non-record top-level
value succeeds and returns the scalar's rendering — a bare `i64` yields
its decimal text, not an `UnsupportedTopLevel` error (which the
serializer never constructs). -/
theorem c6_top_level_scalar_encode :
    to_string (V.int 42) = .ok (strL "42") ∧
    to_string (V.bool true) = .ok (strL "true") ∧
    to_string (V.str (strL "hello")) = .ok (strL "hello") :=
  ⟨rfl, rfl, rfl⟩

/-- C2 counterexample: for the two-character input `\n` (backslash then
the letter n), escape doubles the backslash, but unescape's sequential
replacements first halve the backslashes and then misread the resulting
`\n` as an escaped newline, so the round trip returns a newline instead
of the original string. -/
theorem c2_counterexample :
    unescape_value (escape_value (strL "\\n")) = strL "\n" ∧
    unescape_value (escape_value (strL "\\n")) ≠ strL "\\n" := by
  exact ⟨by decide, by decide⟩

/-- C1 counterexample: a record with a required string field holding the
empty string does not round-trip.  The encoder renders the empty string
as an absent value, emitting the commented `; s = ` placeholder, and the
decoder then fails with a missing-field error instead of returning the
original value. -/
theorem c1_counterexample :
    to_string (V.record (strL "Config") [(strL "s", V.str [])]) = .ok (strL "; s = \n") ∧
    from_str (strL "; s = \n") (Ty.record (strL "Config") [(strL "s", Ty.str)]) =
      .error (.missingField (strL "s")) ∧
    (Except.error (Err.missingField (strL "s")) ≠
      Except.ok (V.record (strL "Config") [(strL "s", V.str [])])) :=
  ⟨rfl, rfl, fun h => Except.noConfusion h⟩

/-- C3 counterexample: fields are emitted in declaration order, so a
scalar field declared after a record field lands after that record's
`[section]` header — here `s = 2` appears after `[a]`, refuting the claim
that every root scalar line precedes every header regardless of
declaration order. -/
theorem c3_counterexample :
    to_string (V.record (strL "Config")
      [(strL "a", V.record (strL "A") [(strL "x", V.int 1)]), (strL "s", V.int 2)]) =
      .ok (strL "[a]\nx = 1\ns = 2\n") ∧
    linesOf (strL "[a]\nx = 1\ns = 2\n") = [strL "[a]", strL "x = 1", strL "s = 2"] :=
  ⟨rfl, rfl⟩

/-!  Table invariants established by the parser, and the reading-decision
agreement (claim C8). -/

theorem containsT_iff_mem_keys (l : Table) (k : Str) :
    containsT l k = true ↔ k ∈ l.map Prod.fst := by
  induction l with
  | nil => simp [containsT, lookupT]
  | cons p rest ih =>
    by_cases h : p.1 = k
    · simp [containsT, lookupT, h]
    · simp only [containsT, lookupT, h, if_false, List.map_cons, List.mem_cons]
      rw [← containsT]
      simp [ih, Ne.symm h]

theorem keys_insertT (l : Table) (k : Str) (v : Sec) :
    (insertT l k v).map Prod.fst =
      if containsT l k then l.map Prod.fst else l.map Prod.fst ++ [k] := by
  induction l with
  | nil => simp [insertT, containsT, lookupT]
  | cons p rest ih =>
    by_cases h : p.1 = k
    · simp [insertT, h, containsT, lookupT]
    · have hc : containsT ((p.1, p.2) :: rest) k = containsT rest k := by
        simp [containsT, lookupT, h]
      simp only [insertT, h, if_false, List.map_cons, ih]
      rw [hc]
      by_cases hck : containsT rest k = true
      · simp [hck]
      · have hck' : containsT rest k = false := by simpa using hck
        simp [hck']

theorem mem_keys_insertT (l : Table) (k k' : Str) (v : Sec)
    (h : k' ∈ l.map Prod.fst) : k' ∈ (insertT l k v).map Prod.fst := by
  rw [keys_insertT]
  by_cases hc : containsT l k
  · simp [hc, h]
  · have hc' : containsT l k = false := by simpa using hc
    simp [hc', h]

theorem nodup_keys_insertT (l : Table) (k : Str) (v : Sec)
    (h : (l.map Prod.fst).Nodup) : ((insertT l k v).map Prod.fst).Nodup := by
  rw [keys_insertT]
  by_cases hc : containsT l k
  · simp [hc, h]
  · have hc' : containsT l k = false := by simpa using hc
    have hk : k ∉ l.map Prod.fst := by
      intro hmem
      rw [(containsT_iff_mem_keys l k).mpr hmem] at hc'
      exact Bool.noConfusion hc'
    simp only [hc', Bool.false_eq_true, if_false]
    refine List.Nodup.append h (List.nodup_singleton k) ?_
    intro a ha hb
    rw [List.mem_singleton.mp hb] at ha
    exact hk ha

theorem tableInv_insertT (l : Table) (k : Str) (v : Sec) (h : TableInv l) :
    TableInv (insertT l k v) :=
  ⟨(containsT_iff_mem_keys _ _).mpr
      (mem_keys_insertT _ _ _ _ ((containsT_iff_mem_keys _ _).mp h.1)),
    nodup_keys_insertT _ _ _ h.2⟩

/-- Every parser step leaves the table unchanged or performs one
`HashMap::insert`. -/
theorem parseLine_sections_cases (st : PState) (line : Str) :
    (parseLine st line).sections = st.sections ∨
    ∃ k v, (parseLine st line).sections = insertT st.sections k v := by
  simp only [parseLine]
  split
  · exact .inl rfl
  · split
    · exact .inr ⟨_, _, rfl⟩
    · split
      · split
        · exact .inr ⟨_, _, rfl⟩
        · exact .inl rfl
      · exact .inl rfl

theorem parseLine_inv (st : PState) (line : Str) (h : TableInv st.sections) :
    TableInv (parseLine st line).sections := by
  rcases parseLine_sections_cases st line with heq | ⟨k, v, heq⟩
  · rw [heq]; exact h
  · rw [heq]; exact tableInv_insertT _ _ _ h

theorem foldl_parseLine_inv (lines : List Str) (st : PState)
    (h : TableInv st.sections) : TableInv (List.foldl parseLine st lines).sections := by
  induction lines generalizing st with
  | nil => exact h
  | cons l rest ih => exact ih _ (parseLine_inv st l h)

theorem parseTable_inv (input : Str) : TableInv (parseTable input) :=
  foldl_parseLine_inv _ _ ⟨rfl, by simp⟩

theorem any_nonroot_iff_length (tbl : Table) (hroot : containsT tbl [] = true)
    (hnd : (tbl.map Prod.fst).Nodup) :
    ((tbl.any fun p => !p.1.isEmpty) = true ↔ 1 < tbl.length) := by
  constructor
  · intro h
    obtain ⟨p, hp, hne⟩ := List.any_eq_true.mp h
    have hproot : p.1 ≠ [] := by simpa [List.isEmpty_iff] using hne
    obtain ⟨v, hv⟩ : ∃ v, ([], v) ∈ tbl := by
      have hm := (containsT_iff_mem_keys tbl []).mp hroot
      obtain ⟨⟨a, b⟩, hq, hq1⟩ := List.mem_map.mp hm
      have ha : a = [] := hq1
      subst ha
      exact ⟨b, hq⟩
    cases tbl with
    | nil => cases hp
    | cons q t =>
      cases t with
      | nil =>
        have h1 : p = q := List.mem_singleton.mp hp
        have h2 : (([] : Str), v) = q := List.mem_singleton.mp hv
        exact absurd (by rw [h1, ← h2]) hproot
      | cons q2 rest => simp
  · intro h
    by_contra hany
    have hall : ∀ p ∈ tbl, p.1 = [] := by
      intro p hp
      by_contra hne
      exact hany (List.any_eq_true.mpr ⟨p, hp, by simpa [List.isEmpty_iff] using hne⟩)
    cases tbl with
    | nil => simp at h
    | cons q t =>
      cases t with
      | nil => simp at h
      | cons q2 rest =>
        have h1 : q.1 = [] := hall q (by simp)
        have h2 : q2.1 = [] := hall q2 (by simp)
        have hnd' := hnd
        simp only [List.map_cons, List.nodup_cons, List.mem_cons] at hnd'
        exact hnd'.1 (Or.inl (h1.trans h2.symm))

/-- C8: the top-level reading decision of `deserialize_struct`, applied to
any parsed document, agrees with the spec's four-case rule: an empty
target name reads root-composite; a section named like the target reads
that single section's fields; otherwise root-composite when any non-root
section exists; otherwise the root section alone.  (`decodeTop` dispatches
on exactly this `chooseReading`.) -/
theorem c8_reading_decision (input name : Str) :
    chooseReading (parseTable input) name = readingSpec (parseTable input) name := by
  obtain ⟨hroot, hnd⟩ := parseTable_inv input
  set tbl := parseTable input with htbl
  unfold chooseReading readingSpec
  by_cases hname : name = []
  · simp [hname]
  · by_cases hcont : containsT tbl name = true
    · simp [hname, hcont]
    · have hcont' : containsT tbl name = false := by simpa using hcont
      have hiff : ((tbl.any fun p => !p.1.isEmpty) = true ↔ 1 < tbl.length) :=
        any_nonroot_iff_length tbl hroot hnd
      by_cases hany : (tbl.any fun p => !p.1.isEmpty) = true
      · have hlen : 1 < tbl.length := hiff.mp hany
        simp [hname, hcont', hany, hlen]
      · have hany' : (tbl.any fun p => !p.1.isEmpty) = false := by simpa using hany
        have hlen2 : ¬ 1 < tbl.length := fun hgt => hany (hiff.mpr hgt)
        have hno : ¬ (tbl.length = 1 ∧ ¬ containsT tbl [] = true) := fun hc => hc.2 hroot
        simp [hname, hcont', hany', hlen2, hno, hroot]

/-!  Facts about plain keys, trimming, line splitting, and parsing of
single lines. -/

theorem plainKeyChar_ne (c x : Char) (h : plainKeyChar c = true)
    (hx : plainKeyChar x = false) : c ≠ x := by
  intro he
  rw [he, hx] at h
  exact Bool.noConfusion h

theorem isWsChar_toNat {c : Char} (h : isWsChar c = true) :
    c.toNat = 9 ∨ c.toNat = 10 ∨ c.toNat = 11 ∨ c.toNat = 12 ∨ c.toNat = 13 ∨
    c.toNat = 32 ∨ c.toNat = 133 ∨ c.toNat = 160 ∨ c.toNat = 5760 ∨
    (8192 ≤ c.toNat ∧ c.toNat ≤ 8202) ∨ c.toNat = 8232 ∨ c.toNat = 8233 ∨
    c.toNat = 8239 ∨ c.toNat = 8287 ∨ c.toNat = 12288 := by
  simp only [isWsChar, Bool.or_eq_true, beq_iff_eq, Bool.and_eq_true,
    decide_eq_true_eq] at h
  tauto

theorem plainKeyChar_not_ws (c : Char) (h : plainKeyChar c = true) :
    isWsChar c = false := by
  by_contra hw
  have hw' : isWsChar c = true := by simpa using hw
  have hr := isWsChar_toNat hw'
  simp only [plainKeyChar, decide_eq_true_eq] at h
  omega

theorem plainKey_not_nl (k : Str) (hk : plainKey k) : '\n' ∉ k := by
  intro hmem
  exact plainKeyChar_ne '\n' '\n' (hk.2 '\n' hmem) (by decide) rfl

theorem trimLeft_eq_self (l : Str)
    (h : ∀ c, l.head? = some c → isWsChar c = false) : trimLeft l = l := by
  cases l with
  | nil => rfl
  | cons c t => simp [trimLeft, List.dropWhile_cons, h c rfl]

theorem trimRight_eq_self (l : Str)
    (h : ∀ c, l.getLast? = some c → isWsChar c = false) : trimRight l = l := by
  have hrev : trimLeft l.reverse = l.reverse :=
    trimLeft_eq_self l.reverse fun c hc => h c (by rwa [List.head?_reverse] at hc)
  simp only [trimRight]
  rw [show l.reverse.dropWhile isWsChar = trimLeft l.reverse from rfl, hrev,
    List.reverse_reverse]

theorem trimStr_eq_self (l : Str)
    (hh : ∀ c, l.head? = some c → isWsChar c = false)
    (hl : ∀ c, l.getLast? = some c → isWsChar c = false) : trimStr l = l := by
  simp only [trimStr]
  rw [trimLeft_eq_self l hh, trimRight_eq_self l hl]

theorem head?_trimStr_cons (c : Char) (l : Str) (hc : isWsChar c = false) :
    (trimStr (c :: l)).head? = some c := by
  simp only [trimStr]
  rw [trimLeft_cons_of_not_ws hc]
  simp only [trimRight, List.reverse_cons, List.dropWhile_append]
  by_cases hemp : (l.reverse.dropWhile isWsChar).isEmpty
  · simp [hemp, List.dropWhile_cons, hc]
  · simp [hemp]

/-- Comment and blank lines do not change parser state. -/
theorem parseLine_skip (st : PState) (line : Str)
    (h : (trimStr line).head? = some ';' ∨ (trimStr line).head? = some '#') :
    parseLine st line = st := by
  rcases h with h | h <;> simp [parseLine, h]

theorem splitChar_of_not_mem (c : Char) (l : Str) (h : c ∉ l) :
    splitChar c l = [l] := by
  induction l with
  | nil => rfl
  | cons x xs ih =>
    have hx : x ≠ c := fun he => h (he ▸ List.mem_cons_self x xs)
    have hxs : c ∉ xs := fun hm => h (List.mem_cons_of_mem x hm)
    simp [splitChar, hx, ih hxs]

theorem splitChar_append_cons (c : Char) (l r : Str) (h : c ∉ l) :
    splitChar c (l ++ c :: r) = l :: splitChar c r := by
  induction l with
  | nil => simp [splitChar]
  | cons x xs ih =>
    have hx : x ≠ c := fun he => h (he ▸ List.mem_cons_self x xs)
    have hxs : c ∉ xs := fun hm => h (List.mem_cons_of_mem x hm)
    have heq := ih hxs
    simp only [List.cons_append, splitChar, hx, if_false, List.append_eq, heq]

theorem splitChar_ne_nil (c : Char) (l : Str) : splitChar c l ≠ [] := by
  cases l with
  | nil => simp [splitChar]
  | cons x xs =>
    simp only [splitChar]
    by_cases hx : x = c
    · simp [hx]
    · simp only [hx, if_false]
      split <;> simp

theorem linesOf_single (l : Str) (h : '\n' ∉ l) : linesOf (l ++ ['\n']) = [l] := by
  have hne : l ++ ['\n'] ≠ [] := by simp
  have hlast : (l ++ ['\n']).getLast? = some '\n' := List.getLast?_concat _
  have hsplit : splitChar '\n' (l ++ '\n' :: []) = l :: splitChar '\n' [] :=
    splitChar_append_cons '\n' l [] h
  simp only [linesOf, hne, if_false, hlast, if_true, reduceIte]
  rw [show l ++ ['\n'] = l ++ '\n' :: [] from rfl, hsplit]
  simp [splitChar]

theorem findIdx_after_key (k : Str) (hk : ∀ c ∈ k, c ≠ '=') (rest : Str) :
    ∀ i, List.findIdx? (fun x => decide (x = '=')) (k ++ ' ' :: '=' :: rest) i =
      some (i + k.length + 1) := by
  induction k with
  | nil =>
    intro i
    simp [List.findIdx?_cons]
  | cons c t ih =>
    intro i
    have hcb : decide (c = '=') = false := decide_eq_false (hk c (List.mem_cons_self c t))
    have ht : ∀ x ∈ t, x ≠ '=' := fun x hx => hk x (List.mem_cons_of_mem _ hx)
    simp only [List.cons_append, List.findIdx?_cons, hcb, Bool.false_eq_true, if_false,
      ih ht (i + 1), List.length_cons]
    congr 1
    omega

theorem plainKey_head (k : Str) (hk : plainKey k) :
    ∃ c, k.head? = some c ∧ plainKeyChar c = true := by
  cases k with
  | nil => exact absurd rfl hk.1
  | cons c t => exact ⟨c, rfl, hk.2 c (List.mem_cons_self c t)⟩

theorem plainKey_getLast (k : Str) (hk : plainKey k) :
    ∀ c, k.getLast? = some c → isWsChar c = false := fun c hc =>
  plainKeyChar_not_ws c (hk.2 c (List.mem_of_getLast?_eq_some hc))

theorem trimStr_key_space (k : Str) (hk : plainKey k) : trimStr (k ++ [' ']) = k := by
  obtain ⟨c, hc, hcp⟩ := plainKey_head k hk
  have hh : ∀ d, (k ++ [' ']).head? = some d → isWsChar d = false := by
    intro d hd
    cases k with
    | nil => exact absurd rfl hk.1
    | cons c' t =>
      have hdc : c' = d := by simpa using hd
      subst hdc
      exact plainKeyChar_not_ws _ (hk.2 _ (List.mem_cons_self _ _))
  have h1 : trimLeft (k ++ [' ']) = k ++ [' '] := trimLeft_eq_self _ hh
  have hrev : trimLeft k.reverse = k.reverse :=
    trimLeft_eq_self k.reverse fun d hd =>
      plainKey_getLast k hk d (by rwa [List.head?_reverse] at hd)
  simp only [trimStr, h1, trimRight, List.reverse_append, List.reverse_singleton,
    List.singleton_append, List.dropWhile_cons]
  have : isWsChar ' ' = true := by decide
  rw [this]
  simp only [if_true, reduceIte]
  rw [show k.reverse.dropWhile isWsChar = trimLeft k.reverse from rfl, hrev,
    List.reverse_reverse]

theorem trimStr_space_value (v0 : Str)
    (hvh : ∀ c, v0.head? = some c → isWsChar c = false)
    (hvl : ∀ c, v0.getLast? = some c → isWsChar c = false) :
    trimStr (' ' :: v0) = v0 := by
  have h1 : trimLeft (' ' :: v0) = trimLeft v0 := by
    have hsp : isWsChar ' ' = true := by decide
    simp [trimLeft, List.dropWhile_cons, hsp]
  rw [trimStr, h1, trimLeft_eq_self _ hvh, trimRight_eq_self _ hvl]

/-- Parsing a well-formed `key = value` line stores the unescaped value
under the key in the current section. -/
theorem parseLine_kv (st : PState) (k v0 : Str) (hk : plainKey k)
    (hvne : v0 ≠ [])
    (hvh : ∀ c, v0.head? = some c → isWsChar c = false)
    (hvl : ∀ c, v0.getLast? = some c → isWsChar c = false) :
    parseLine st (k ++ ' ' :: '=' :: ' ' :: v0) =
      (match lookupT st.sections st.currentSection with
       | some sec =>
         { st with
             sections := insertT st.sections st.currentSection (insertT sec k (unescape_value v0)) }
       | none => st) := by
  obtain ⟨c, hc, hcp⟩ := plainKey_head k hk
  obtain ⟨d, hd⟩ : ∃ d, v0.getLast? = some d := by
    cases hvd : v0.getLast? with
    | none => exact absurd (List.getLast?_eq_none_iff.mp hvd) hvne
    | some d => exact ⟨d, rfl⟩
  set line := k ++ ' ' :: '=' :: ' ' :: v0 with hline
  have hlhead : line.head? = some c := by
    rw [hline]
    cases k with
    | nil => exact absurd rfl hk.1
    | cons c' t => simpa using hc
  have hllast : line.getLast? = some d := by
    rw [hline, show k ++ ' ' :: '=' :: ' ' :: v0 = (k ++ [' ', '=', ' ']) ++ v0 by simp]
    rw [List.getLast?_append, hd]
    rfl
  have htrim : trimStr line = line := by
    refine trimStr_eq_self line ?_ ?_
    · intro e he
      rw [hlhead] at he
      cases he
      exact plainKeyChar_not_ws c hcp
    · intro e he
      rw [hllast] at he
      cases he
      exact hvl d hd
  have hkne : ∀ x ∈ k, x ≠ '=' := fun x hx =>
    plainKeyChar_ne x '=' (hk.2 x hx) (by decide)
  have hfind : List.findIdx? (fun x => decide (x = '=')) line = some (k.length + 1) := by
    rw [hline]
    have h0 := findIdx_after_key k hkne (' ' :: v0) 0
    rw [h0]
    congr 1
    omega
  have hcond1 : ¬(line = [] ∨ line.head? = some ';' ∨ line.head? = some '#') := by
    push_neg
    refine ⟨?_, ?_, ?_⟩
    · intro h
      rw [h] at hlhead
      exact Option.noConfusion hlhead
    · rw [hlhead]
      intro h
      exact plainKeyChar_ne c ';' hcp (by decide) (by injection h)
    · rw [hlhead]
      intro h
      exact plainKeyChar_ne c '#' hcp (by decide) (by injection h)
  have hcond2 : ¬(line.head? = some '[' ∧ line.getLast? = some ']') := by
    intro h
    rw [hlhead] at h
    exact plainKeyChar_ne c '[' hcp (by decide) (by injection h.1)
  have htake : line.take (k.length + 1) = k ++ [' '] := by
    rw [hline, show k ++ ' ' :: '=' :: ' ' :: v0 = (k ++ [' ']) ++ '=' :: ' ' :: v0 by simp]
    exact List.take_left' (by simp)
  have hdrop : line.drop (k.length + 1 + 1) = ' ' :: v0 := by
    rw [hline, show k ++ ' ' :: '=' :: ' ' :: v0 = (k ++ [' ', '=']) ++ ' ' :: v0 by simp]
    exact List.drop_left' (by simp)
  simp only [parseLine, htrim, hcond1, if_false, hcond2, hfind, htake, hdrop,
    trimStr_key_space k hk, trimStr_space_value v0 hvh hvl]

theorem decodeTop_single_opt_field (k v : Str) (t : Ty) (name : Str) :
    decodeTop [([], [(k, v)])] (Ty.record name [(k, Ty.opt t)]) =
      match coerce t v with
      | .ok w => .ok (V.record name [(k, V.opt (some w))])
      | .error e => .error e := by
  by_cases hn : name = []
  · subst hn
    simp only [decodeTop, chooseReading, containsT, lookupT, if_true, reduceIte,
      decodeRootFields, rootEntries, Option.getD, List.map_cons, List.map_nil,
      List.filter, initSlots, fillAllR, fillOneR, Entry.key, decodeEntry, coerce]
    have hroot : lookupT [(([] : Str), [(k, v)])] [] = some [(k, v)] := by
      simp [lookupT]
    cases hw : coerce t v with
    | ok w =>
      simp [hroot, hw, fillAllR, fillOneR, Entry.key, decodeEntry, coerce,
        finalizeSlots, Except.map]
    | error e =>
      simp [hroot, hw, fillAllR, fillOneR, Entry.key, decodeEntry, coerce,
        finalizeSlots, Except.map]
  · have hne' : ¬([] : Str) = name := fun h => hn h.symm
    have hlook : lookupT [(([] : Str), [(k, v)])] name = none := by
      simp [lookupT, hne']
    have hcontn : containsT [(([] : Str), [(k, v)])] name = false := by
      simp [containsT, hlook]
    have hcont0 : containsT [(([] : Str), [(k, v)])] [] = true := by
      simp [containsT, lookupT]
    simp only [decodeTop, chooseReading, hn, hcontn, hcont0]
    simp only [List.length_singleton, Nat.lt_irrefl, false_or, Bool.false_eq_true, or_self,
      if_false, Bool.not_true, and_false, reduceIte]
    cases hw : coerce t v with
    | ok w =>
      simp [lookupT, decodeSectionFields, initSlots, fillAllV, fillOneV, coerce, hw,
        finalizeSlots, Except.map]
    | error e =>
      simp [lookupT, decodeSectionFields, initSlots, fillAllV, fillOneV, coerce, hw,
        finalizeSlots, Except.map]

/-- C10: decoding a field of optional type from a key that is present in
the resolved section always takes the `Some` branch: whenever the decode
of a one-optional-field record from a `key = value` line succeeds, the
field holds `Some` of the inner coercion's result — `None` can only come
from an absent key, never from a present value's content. -/
theorem c10_present_key_decodes_some (n k x : Str) (t : Ty) (res : V)
    (hk : plainKey k) (hnl : '\n' ∉ x) (hne : x ≠ [])
    (hvh : ∀ c, x.head? = some c → isWsChar c = false)
    (hvl : ∀ c, x.getLast? = some c → isWsChar c = false)
    (hres : from_str ((k ++ ' ' :: '=' :: ' ' :: x) ++ ['\n'])
      (Ty.record n [(k, Ty.opt t)]) = .ok res) :
    ∃ w, coerce t (unescape_value x) = .ok w ∧
      res = V.record n [(k, V.opt (some w))] := by
  have hnll : '\n' ∉ k ++ ' ' :: '=' :: ' ' :: x := by
    intro hm
    rcases List.mem_append.mp hm with h | h
    · exact plainKey_not_nl k hk h
    · simp only [List.mem_cons] at h
      rcases h with he | he | he | he
      · exact absurd he (by decide)
      · exact absurd he (by decide)
      · exact absurd he (by decide)
      · exact hnl he
  have hlines : linesOf ((k ++ ' ' :: '=' :: ' ' :: x) ++ ['\n']) =
      [k ++ ' ' :: '=' :: ' ' :: x] := linesOf_single _ hnll
  have hstep := parseLine_kv ⟨[], [([], [])]⟩ k x hk hne hvh hvl
  have htbl : parseTable ((k ++ ' ' :: '=' :: ' ' :: x) ++ ['\n']) =
      [([], [(k, unescape_value x)])] := by
    simp only [parseTable, hlines, List.foldl_cons, List.foldl_nil, hstep]
    simp [lookupT, insertT]
  rw [from_str, htbl, decodeTop_single_opt_field] at hres
  cases hw : coerce t (unescape_value x) with
  | ok w =>
    rw [hw] at hres
    refine ⟨w, rfl, ?_⟩
    simpa using hres.symm
  | error e =>
    rw [hw] at hres
    exact Except.noConfusion hres

theorem decodeTop_single_empty (k : Str) (t : Ty) (name : Str) :
    decodeTop [([], [])] (Ty.record name [(k, t)]) =
      (match t with
       | .opt _ => .ok (V.record name [(k, V.opt none)])
       | _ => .error (.missingField k)) := by
  have hbody : ∀ u : Ty, (match fillAllV (initSlots [(k, u)]) [] with
      | .error e => .error e
      | .ok slots => finalizeSlots slots) =
      (match u with
       | .opt _ => Except.ok [(k, V.opt none)]
       | _ => .error (Err.missingField k)) := by
    intro u
    cases u <;> simp [fillAllV, initSlots, finalizeSlots, Except.map]
  by_cases hn : name = []
  · subst hn
    have hroot : lookupT [(([] : Str), ([] : Sec))] [] = some [] := by simp [lookupT]
    simp only [decodeTop, chooseReading, containsT, hroot, Option.isSome_some, if_true,
      reduceIte, decodeRootFields, rootEntries, Option.getD, List.map_nil, List.filter,
      List.nil_append]
    have := hbody t
    simp only [decodeSectionFields] at this
    cases t <;>
      simp_all [fillAllR, initSlots, finalizeSlots, fillAllV, Except.map, List.filter]
  · have hne' : ¬([] : Str) = name := fun h => hn h.symm
    have hlook : lookupT [(([] : Str), ([] : Sec))] name = none := by simp [lookupT, hne']
    have hcontn : containsT [(([] : Str), ([] : Sec))] name = false := by
      simp [containsT, hlook]
    have hcont0 : containsT [(([] : Str), ([] : Sec))] [] = true := by
      simp [containsT, lookupT]
    simp only [decodeTop, chooseReading, hn, hcontn, hcont0]
    simp only [List.length_singleton, Nat.lt_irrefl, false_or, Bool.false_eq_true, or_self,
      if_false, Bool.not_true, and_false, reduceIte]
    cases t <;> simp [lookupT, decodeSectionFields, initSlots, fillAllV, finalizeSlots,
      Except.map]

/-- C7: a `None` optional field whose name is not a collected section
name is encoded as exactly the commented line `; key = `, and decoding
that output yields `None` for the field; when the field's name is a
collected section name, `serialize_field` emits nothing for it. -/
theorem c7_optional_none_field (n k : Str) (t : Ty) (st : SState)
    (rest : List (Str × V)) (hk : '\n' ∉ k) :
    to_string (V.record n [(k, V.opt none)]) = .ok (strL "; " ++ k ++ strL " = \n") ∧
    from_str (strL "; " ++ k ++ strL " = \n") (Ty.record n [(k, Ty.opt t)]) =
      .ok (V.record n [(k, V.opt none)]) ∧
    (k ∈ st.sectionNames →
      serFields st ((k, V.opt none) :: rest) = serFields st rest) := by
  refine ⟨?_, ?_, ?_⟩
  · rfl
  · have harr : strL "; " ++ k ++ strL " = \n" = (';' :: ' ' :: k ++ [' ', '=', ' ']) ++ ['\n'] := by
      simp [strL]
    have hnll : '\n' ∉ ';' :: ' ' :: k ++ [' ', '=', ' '] := by
      simp [hk]
    have hlines : linesOf ((';' :: ' ' :: k ++ [' ', '=', ' ']) ++ ['\n']) =
        [';' :: ' ' :: k ++ [' ', '=', ' ']] := linesOf_single _ hnll
    have hskip : parseLine ⟨[], [([], [])]⟩ (';' :: ' ' :: k ++ [' ', '=', ' ']) =
        ⟨[], [([], [])]⟩ :=
      parseLine_skip _ _ (Or.inl (head?_trimStr_cons ';' _ (by decide)))
    have htbl : parseTable (strL "; " ++ k ++ strL " = \n") = [([], [])] := by
      rw [harr]
      simp only [parseTable, hlines, List.foldl_cons, List.foldl_nil, hskip]
    rw [from_str, htbl, decodeTop_single_empty]
  · intro hmem
    simp [serFields, serValue, isStructV, hmem]

theorem parseTable_commented (k : Str) (hk : '\n' ∉ k) :
    parseTable (strL "; " ++ k ++ strL " = \n") = [([], [])] := by
  have harr : strL "; " ++ k ++ strL " = \n" = (';' :: ' ' :: k ++ [' ', '=', ' ']) ++ ['\n'] := by
    simp [strL]
  have hnll : '\n' ∉ ';' :: ' ' :: k ++ [' ', '=', ' '] := by
    simp [hk]
  have hlines : linesOf ((';' :: ' ' :: k ++ [' ', '=', ' ']) ++ ['\n']) =
      [';' :: ' ' :: k ++ [' ', '=', ' ']] := linesOf_single _ hnll
  have hskip : parseLine ⟨[], [([], [])]⟩ (';' :: ' ' :: k ++ [' ', '=', ' ']) =
      ⟨[], [([], [])]⟩ :=
    parseLine_skip _ _ (Or.inl (head?_trimStr_cons ';' _ (by decide)))
  rw [harr]
  simp only [parseTable, hlines, List.foldl_cons, List.foldl_nil, hskip]

/-- C9: a present field whose scalar rendering is the empty string — the
empty string itself, or `Some("")` at an optional string field — is
emitted as the commented placeholder `; key = `, exactly like an absent
value; decoding that output yields `None` at optional type and a
missing-field error at required type, so the value is indistinguishable
from `None` in the output. -/
theorem c9_empty_rendering_encoded_as_absent (n k : Str) (hk : '\n' ∉ k) :
    to_string (V.record n [(k, V.str [])]) = .ok (strL "; " ++ k ++ strL " = \n") ∧
    to_string (V.record n [(k, V.opt (some (V.str [])))]) =
      .ok (strL "; " ++ k ++ strL " = \n") ∧
    from_str (strL "; " ++ k ++ strL " = \n") (Ty.record n [(k, Ty.opt Ty.str)]) =
      .ok (V.record n [(k, V.opt none)]) ∧
    from_str (strL "; " ++ k ++ strL " = \n") (Ty.record n [(k, Ty.str)]) =
      .error (.missingField k) := by
  refine ⟨rfl, rfl, ?_, ?_⟩
  · rw [from_str, parseTable_commented k hk, decodeTop_single_empty]
  · rw [from_str, parseTable_commented k hk, decodeTop_single_empty]

theorem c7_witness :
    ('\n' ∉ strL "age") ∧
    (to_string (V.record (strL "Config") [(strL "age", V.opt none)]) =
        .ok (strL "; " ++ strL "age" ++ strL " = \n") ∧
      from_str (strL "; " ++ strL "age" ++ strL " = \n")
          (Ty.record (strL "Config") [(strL "age", Ty.opt Ty.int)]) =
        .ok (V.record (strL "Config") [(strL "age", V.opt none)]) ∧
      (strL "age" ∈ (SState.mk [] none [strL "age"]).sectionNames →
        serFields (SState.mk [] none [strL "age"]) ((strL "age", V.opt none) :: []) =
          serFields (SState.mk [] none [strL "age"]) [])) :=
  ⟨by decide,
    c7_optional_none_field (strL "Config") (strL "age") Ty.int
      (SState.mk [] none [strL "age"]) [] (by decide)⟩

theorem c9_witness :
    ('\n' ∉ strL "email") ∧
    (to_string (V.record (strL "User") [(strL "email", V.str [])]) =
        .ok (strL "; " ++ strL "email" ++ strL " = \n") ∧
      to_string (V.record (strL "User") [(strL "email", V.opt (some (V.str [])))]) =
        .ok (strL "; " ++ strL "email" ++ strL " = \n") ∧
      from_str (strL "; " ++ strL "email" ++ strL " = \n")
          (Ty.record (strL "User") [(strL "email", Ty.opt Ty.str)]) =
        .ok (V.record (strL "User") [(strL "email", V.opt none)]) ∧
      from_str (strL "; " ++ strL "email" ++ strL " = \n")
          (Ty.record (strL "User") [(strL "email", Ty.str)]) =
        .error (.missingField (strL "email"))) :=
  ⟨by decide, c9_empty_rendering_encoded_as_absent (strL "User") (strL "email") (by decide)⟩

theorem c10_witness :
    plainKey (strL "port") ∧
    (∃ w, coerce Ty.int (unescape_value (strL "8080")) = .ok w ∧
      V.record (strL "Config") [(strL "port", V.opt (some (V.int 8080)))] =
        V.record (strL "Config") [(strL "port", V.opt (some w))]) :=
  ⟨⟨by decide, by decide⟩,
    c10_present_key_decodes_some (strL "Config") (strL "port") (strL "8080") Ty.int
      (V.record (strL "Config") [(strL "port", V.opt (some (V.int 8080)))])
      ⟨by decide, by decide⟩
      (by decide)
      (by decide)
      (fun c hc => by
        rw [show (strL "8080").head? = some '8' from rfl] at hc
        cases hc
        decide)
      (fun c hc => by
        rw [show (strL "8080").getLast? = some '0' from rfl] at hc
        cases hc
        decide)
      rfl⟩

/-!  The escaping round trip on backslash-free strings (claim C2,
amended).  `escape_value` acts characterwise; the proof tracks the
unescape passes through a parametrized character map. -/

theorem replace1_append (c : Char) (rep a b : Str) :
    replace1 c rep (a ++ b) = replace1 c rep a ++ replace1 c rep b := by
  induction a with
  | nil => rfl
  | cons x xs ih =>
    by_cases hx : x = c <;> simp [replace1, hx, ih]

theorem replace1_of_not_mem {c : Char} {l : Str} (h : c ∉ l) (rep : Str) :
    replace1 c rep l = l := by
  induction l with
  | nil => rfl
  | cons x xs ih =>
    have hx : x ≠ c := fun he => h (he ▸ List.mem_cons_self x xs)
    have hxs : c ∉ xs := fun hm => h (List.mem_cons_of_mem x hm)
    simp [replace1, hx, ih hxs]

theorem flatMap_pure_eq (l : Str) : l.flatMap (fun x => [x]) = l := by
  induction l with
  | nil => rfl
  | cons x xs ih => simp [List.flatMap_cons, ih]

theorem replace1_flatMap (c : Char) (rep : Str) (f : Char → Str) (l : Str) :
    replace1 c rep (l.flatMap f) = l.flatMap (fun x => replace1 c rep (f x)) := by
  induction l with
  | nil => rfl
  | cons x xs ih => simp [List.flatMap_cons, replace1_append, ih]

theorem fmCongr {f g : Char → Str} (l : Str) (h : ∀ x ∈ l, f x = g x) :
    l.flatMap f = l.flatMap g := by
  induction l with
  | nil => rfl
  | cons x xs ih =>
    simp only [List.flatMap_cons]
    rw [h x (List.mem_cons_self x xs), ih fun y hy => h y (List.mem_cons_of_mem x hy)]

theorem escChain (x : Char) (hx : x ≠ '\\') :
    replace1 '#' ['\\', '#']
      (replace1 ';' ['\\', ';']
        (replace1 '"' ['\\', '"']
          (replace1 '\t' ['\\', 't']
            (replace1 '\r' ['\\', 'r']
              (replace1 '\n' ['\\', 'n'] [x]))))) = escCharRem escPairs x := by
  by_cases h1 : x = '\n'
  · subst h1; decide
  by_cases h2 : x = '\r'
  · subst h2; decide
  by_cases h3 : x = '\t'
  · subst h3; decide
  by_cases h4 : x = '"'
  · subst h4; decide
  by_cases h5 : x = ';'
  · subst h5; decide
  by_cases h6 : x = '#'
  · subst h6; decide
  have e1 : ('\n' = x) = False := by simp [eq_comm, h1]
  have e2 : ('\r' = x) = False := by simp [eq_comm, h2]
  have e3 : ('\t' = x) = False := by simp [eq_comm, h3]
  have e4 : ('"' = x) = False := by simp [eq_comm, h4]
  have e5 : (';' = x) = False := by simp [eq_comm, h5]
  have e6 : ('#' = x) = False := by simp [eq_comm, h6]
  simp [replace1, escCharRem, escPairs, List.find?, h1, h2, h3, h4, h5, h6,
    e1, e2, e3, e4, e5, e6]

theorem escape_flatMap (s : Str) (h : '\\' ∉ s) :
    escape_value s = s.flatMap (escCharRem escPairs) := by
  unfold escape_value
  rw [replace1_of_not_mem h]
  conv_lhs => rw [← flatMap_pure_eq s]
  rw [replace1_flatMap, replace1_flatMap, replace1_flatMap, replace1_flatMap,
    replace1_flatMap, replace1_flatMap]
  exact fmCongr s fun x hx =>
    escChain x fun he => h (he ▸ hx)

theorem replace2_cons_of_ne {y c : Char} (hy : y ≠ c) (d : Char) (rep t : Str) :
    replace2 c d rep (y :: t) = y :: replace2 c d rep t := by
  cases t with
  | nil => rfl
  | cons z zs =>
    have : ¬(y = c ∧ z = d) := fun hc => hy hc.1
    simp [replace2, this]

theorem replace2_flatMap (c : Char) (rep : Str) (f : Char → Str) (l : Str)
    (hf : ∀ x ∈ l, (∃ y, f x = [y] ∧ y ≠ '\\') ∨ (∃ d, f x = ['\\', d] ∧ d ≠ '\\')) :
    replace2 '\\' c rep (l.flatMap f) =
      l.flatMap (fun x => if f x = ['\\', c] then rep else f x) := by
  induction l with
  | nil => rfl
  | cons x t ih =>
    have iht := ih fun y hy => hf y (List.mem_cons_of_mem x hy)
    rcases hf x (List.mem_cons_self x t) with ⟨y, hfy, hy⟩ | ⟨d, hfd, hd⟩
    · have hne : f x ≠ ['\\', c] := by
        rw [hfy]
        intro hcon
        injection hcon with h1 _
        exact hy h1
      simp only [List.flatMap_cons, hfy, List.singleton_append, hne, if_false, if_neg hne]
      rw [replace2_cons_of_ne hy, iht]
      simp [hfy]
    · by_cases hdc : d = c
      · subst hdc
        have hcond : ('\\' = '\\' ∧ d = d) := ⟨rfl, rfl⟩
        simp only [List.flatMap_cons, hfd, List.cons_append, List.nil_append]
        rw [show ('\\' :: d :: t.flatMap f) = '\\' :: d :: t.flatMap f from rfl]
        simp only [replace2, hcond, if_true, reduceIte, iht]
        simp [hfd]
      · have hne : f x ≠ ['\\', c] := by
          rw [hfd]
          intro hcon
          injection hcon with _ h2
          injection h2 with h3 _
          exact hdc h3
        simp only [List.flatMap_cons, hfd, List.cons_append, List.nil_append]
        rw [show replace2 '\\' c rep ('\\' :: d :: t.flatMap f) =
              '\\' :: replace2 '\\' c rep (d :: t.flatMap f) from by
            simp [replace2, hdc]]
        rw [replace2_cons_of_ne hd, iht]
        simp [hdc]

theorem escCharRem_shape (rem : List (Char × Char)) (hrem : ∀ p ∈ rem, p.2 ≠ '\\')
    (x : Char) (hx : x ≠ '\\') :
    (∃ y, escCharRem rem x = [y] ∧ y ≠ '\\') ∨
      (∃ d, escCharRem rem x = ['\\', d] ∧ d ≠ '\\') := by
  unfold escCharRem
  cases hf : rem.find? (fun p => p.1 = x) with
  | none => exact .inl ⟨x, rfl, hx⟩
  | some p => exact .inr ⟨p.2, rfl, hrem p (List.mem_of_find?_eq_some hf)⟩

theorem collapse_head (orig code : Char) (rem : List (Char × Char)) (x : Char)
    (hcodes : ∀ p ∈ rem, p.2 ≠ code)
    (horig : ∀ p ∈ rem, p.1 ≠ orig) :
    (if escCharRem ((orig, code) :: rem) x = ['\\', code] then ([orig] : Str)
     else escCharRem ((orig, code) :: rem) x) = escCharRem rem x := by
  by_cases hxo : x = orig
  · subst hxo
    have hhead : escCharRem ((x, code) :: rem) x = ['\\', code] := by
      simp [escCharRem, List.find?]
    have hrem2 : rem.find? (fun p => p.1 = x) = none :=
      List.find?_eq_none.mpr fun p hp => by simpa using horig p hp
    simp [hhead, escCharRem, hrem2]
  · have hskip : escCharRem ((orig, code) :: rem) x = escCharRem rem x := by
      have hox : (orig = x) = False := eq_false (Ne.symm hxo)
      simp [escCharRem, List.find?, hox]
    rw [hskip]
    cases hf : rem.find? (fun p => p.1 = x) with
    | none =>
      have hpure : escCharRem rem x = [x] := by simp [escCharRem, hf]
      rw [hpure]
      simp
    | some p =>
      have hval : escCharRem rem x = ['\\', p.2] := by simp [escCharRem, hf]
      have hp2 : p.2 ≠ code := hcodes p (List.mem_of_find?_eq_some hf)
      rw [hval]
      simp [hp2]

theorem pass_step (orig code : Char) (rem : List (Char × Char)) (s : Str)
    (hs : '\\' ∉ s)
    (hshape : ∀ p ∈ ((orig, code) :: rem), p.2 ≠ '\\')
    (hcodes : ∀ p ∈ rem, p.2 ≠ code)
    (horig : ∀ p ∈ rem, p.1 ≠ orig) :
    replace2 '\\' code [orig] (s.flatMap (escCharRem ((orig, code) :: rem))) =
      s.flatMap (escCharRem rem) := by
  rw [replace2_flatMap code [orig] _ s
    (fun x hx => escCharRem_shape _ hshape x fun he => hs (he ▸ hx))]
  exact fmCongr s fun x _ => collapse_head orig code rem x hcodes horig

theorem pass_backslash (rem : List (Char × Char)) (s : Str) (hs : '\\' ∉ s)
    (hcodes : ∀ p ∈ rem, p.2 ≠ '\\') :
    replace2 '\\' '\\' ['\\'] (s.flatMap (escCharRem rem)) =
      s.flatMap (escCharRem rem) := by
  rw [replace2_flatMap '\\' ['\\'] _ s
    (fun x hx => escCharRem_shape _ hcodes x fun he => hs (he ▸ hx))]
  refine fmCongr s fun x _ => ?_
  cases hf : rem.find? (fun p => p.1 = x) with
  | none =>
    have hpure : escCharRem rem x = [x] := by simp [escCharRem, hf]
    rw [hpure]
    simp
  | some p =>
    have hval : escCharRem rem x = ['\\', p.2] := by simp [escCharRem, hf]
    have hp2 : p.2 ≠ '\\' := hcodes p (List.mem_of_find?_eq_some hf)
    rw [hval]
    simp [hp2]

/-- Helper: the escaping round trip for backslash-free strings. -/
theorem unescape_escape_no_bs (s : Str) (h : '\\' ∉ s) :
    unescape_value (escape_value s) = s := by
  rw [escape_flatMap s h]
  unfold unescape_value
  rw [pass_backslash escPairs s h (by decide)]
  rw [show escPairs = ('\n', 'n') :: [('\r', 'r'), ('\t', 't'), ('"', '"'), (';', ';'), ('#', '#')] from rfl]
  rw [pass_step '\n' 'n' _ s h (by decide) (by decide) (by decide)]
  rw [show [('\r', 'r'), ('\t', 't'), ('"', '"'), (';', ';'), ('#', '#')] =
    ('\r', 'r') :: [('\t', 't'), ('"', '"'), (';', ';'), ('#', '#')] from rfl]
  rw [pass_step '\r' 'r' _ s h (by decide) (by decide) (by decide)]
  rw [show [('\t', 't'), ('"', '"'), (';', ';'), ('#', '#')] =
    ('\t', 't') :: [('"', '"'), (';', ';'), ('#', '#')] from rfl]
  rw [pass_step '\t' 't' _ s h (by decide) (by decide) (by decide)]
  rw [show [('"', '"'), (';', ';'), ('#', '#')] =
    ('"', '"') :: [(';', ';'), ('#', '#')] from rfl]
  rw [pass_step '"' '"' _ s h (by decide) (by decide) (by decide)]
  rw [show [((';' : Char), (';' : Char)), ('#', '#')] = (';', ';') :: [('#', '#')] from rfl]
  rw [pass_step ';' ';' _ s h (by decide) (by decide) (by decide)]
  rw [show [(('#' : Char), ('#' : Char))] = ('#', '#') :: ([] : List (Char × Char)) from rfl]
  rw [pass_step '#' '#' _ s h (by decide) (by decide) (by decide)]
  rw [show List.flatMap s (escCharRem []) = List.flatMap s (fun x => [x]) from
    fmCongr s fun x _ => rfl]
  exact flatMap_pure_eq s

/-- C2 amended: the escaping round trip holds for every string containing
no backslash — `unescape_value (escape_value s) = s` whenever `'\\' ∉ s`.
(The counterexample `c2_counterexample` shows the unrestricted claim
fails: a literal backslash followed by `n`, `r` or `t` is corrupted by the
sequential replacement passes.) -/
theorem c2_amended_roundtrip_no_backslash (s : Str) (h : '\\' ∉ s) :
    unescape_value (escape_value s) = s :=
  unescape_escape_no_bs s h

theorem c2_amended_witness :
    ('\\' ∉ strL "a;b#c\n") ∧
    unescape_value (escape_value (strL "a;b#c\n")) = strL "a;b#c\n" :=
  ⟨by decide, c2_amended_roundtrip_no_backslash (strL "a;b#c\n") (by decide)⟩

/-!  Output of the serializer grows by newline-terminated chunks
(needed for claims C3 and C1). -/

theorem nlTerm_append (a b : Str) (ha : nlTerm a) (hb : nlTerm b) : nlTerm (a ++ b) := by
  rcases hb with hb | hb
  · subst hb
    simpa using ha
  · right
    rw [List.getLast?_append, hb]
    rfl

theorem nlTerm_concat_nl (a : Str) : nlTerm (a ++ ['\n']) := by
  right
  exact List.getLast?_concat a

theorem nlTerm_comment (k : Str) : nlTerm (strL "; " ++ k ++ strL " = \n") := by
  right
  rw [show strL "; " ++ k ++ strL " = \n" = (strL "; " ++ k ++ [' ', '=', ' ']) ++ ['\n'] by
    simp [strL]]
  exact List.getLast?_concat _

theorem nlTerm_kv (k v : Str) : nlTerm (k ++ strL " = " ++ escape_value v ++ ['\n']) := by
  right
  rw [show k ++ strL " = " ++ escape_value v ++ ['\n'] =
    (k ++ strL " = " ++ escape_value v) ++ ['\n'] by simp]
  exact List.getLast?_concat _

theorem nlTerm_header (k : Str) : nlTerm ('[' :: k ++ strL "]\n") := by
  right
  rw [show '[' :: k ++ strL "]\n" = ('[' :: k ++ [']']) ++ ['\n'] by simp [strL]]
  exact List.getLast?_concat _

/-- When the accumulated output is empty or newline-terminated,
`serialize_field` inserts no separating newline before a header. -/
theorem no_newline_insert (st : SState) (h : nlTerm st.output) :
    (if st.output ≠ [] ∧ st.output.getLast? ≠ some '\n' then
      { st with output := st.output ++ ['\n'] } else st) = st := by
  rcases h with h | h
  · rw [if_neg]
    intro hc
    exact hc.1 h
  · rw [if_neg]
    intro hc
    exact hc.2 h

theorem nlTerm_cons_nl (c : Char) (x : Str) (h : x.getLast? = some '\n') :
    nlTerm (c :: x) := by
  right
  rw [List.getLast?_cons, h]
  rfl

theorem nlTerm_last (x : Str) (h : nlTerm x) (hne : x ≠ []) :
    x.getLast? = some '\n' := by
  rcases h with h | h
  · exact absurd h hne
  · exact h

mutual

theorem serValue_chunk (v : V) : ∀ (st st' : SState), isStructV v = true →
    serValue st v = .ok st' →
    ∃ d, st'.output = st.output ++ d ∧ nlTerm d := by
  intro st st' hs h
  cases v with
  | record name fs =>
    rw [serValue] at h
    rcases serFields_chunk fs _ st' h with ⟨d, hd, hnl⟩
    refine ⟨d, ?_, hnl⟩
    rw [hd]
    congr 1
    split <;> rfl
  | opt o =>
    cases o with
    | none => exact Bool.noConfusion hs
    | some v' =>
      rw [serValue] at h
      exact serValue_chunk v' st st' hs h
  | bool b => exact Bool.noConfusion hs
  | int n => exact Bool.noConfusion hs
  | str s => exact Bool.noConfusion hs
  | char c => exact Bool.noConfusion hs
  | vmap e => exact Bool.noConfusion hs
  | unitVariant a b => exact Bool.noConfusion hs
  | seq e => exact Bool.noConfusion hs

theorem serFields_chunk (fs : List (Str × V)) : ∀ (st st' : SState),
    serFields st fs = .ok st' →
    ∃ d, st'.output = st.output ++ d ∧ nlTerm d := by
  intro st st' h
  cases fs with
  | nil =>
    have hst : st' = st := by
      rw [serFields] at h
      exact (Except.ok.inj h).symm
    subst hst
    exact ⟨[], by rw [List.append_nil], Or.inl rfl⟩
  | cons kv rest =>
    obtain ⟨k, v⟩ := kv
    rw [serFields] at h
    by_cases hsv : isStructV v = true
    · simp only [hsv, if_true, reduceIte] at h
      cases hser : serValue ⟨[], some k, st.sectionNames⟩ v with
      | error e => rw [hser] at h; exact Except.noConfusion h
      | ok nested =>
        rw [hser] at h
        dsimp only at h
        have hnl_nested : nlTerm nested.output := by
          rcases serValue_chunk v _ _ hsv hser with ⟨dn, hdn, hnln⟩
          simp only [List.nil_append] at hdn
          rw [hdn]
          exact hnln
        by_cases hins : st.output ≠ [] ∧ st.output.getLast? ≠ some '\n'
        · rw [if_pos hins] at h
          rcases serFields_chunk rest _ _ h with ⟨dr, hdr, hnlr⟩
          simp only at hdr
          refine ⟨'\n' :: (('[' :: k ++ strL "]\n") ++ nested.output ++ dr), ?_, ?_⟩
          · rw [hdr]
            simp
          · have hx : nlTerm (('[' :: k ++ strL "]\n") ++ nested.output ++ dr) :=
              nlTerm_append _ _ (nlTerm_append _ _ (nlTerm_header k) hnl_nested) hnlr
            refine nlTerm_cons_nl _ _ (nlTerm_last _ hx ?_)
            simp
        · rw [if_neg hins] at h
          rcases serFields_chunk rest _ _ h with ⟨dr, hdr, hnlr⟩
          simp only at hdr
          refine ⟨('[' :: k ++ strL "]\n") ++ nested.output ++ dr, ?_, ?_⟩
          · rw [hdr]
            simp
          · exact nlTerm_append _ _ (nlTerm_append _ _ (nlTerm_header k) hnl_nested) hnlr
    · simp only [hsv, Bool.false_eq_true, if_false, reduceIte] at h
      cases htemp : serValue ⟨[], st.currentSection, st.sectionNames⟩ v with
      | error e => rw [htemp] at h; exact Except.noConfusion h
      | ok temp =>
        rw [htemp] at h
        dsimp only at h
        by_cases hemp : temp.output = []
        · rw [if_pos hemp] at h
          by_cases hmem : k ∈ st.sectionNames
          · rw [if_pos hmem] at h
            exact serFields_chunk rest _ _ h
          · rw [if_neg hmem] at h
            rcases serFields_chunk rest _ _ h with ⟨dr, hdr, hnlr⟩
            simp only [write_commented_key] at hdr
            refine ⟨(strL "; " ++ k ++ strL " = \n") ++ dr, ?_, ?_⟩
            · rw [hdr]
              simp
            · exact nlTerm_append _ _ (nlTerm_comment k) hnlr
        · rw [if_neg hemp] at h
          rcases serFields_chunk rest _ _ h with ⟨dr, hdr, hnlr⟩
          simp only [write_key_value] at hdr
          refine ⟨(k ++ strL " = " ++ escape_value temp.output ++ ['\n']) ++ dr, ?_, ?_⟩
          · rw [hdr]
            simp
          · exact nlTerm_append _ _ (nlTerm_kv k temp.output) hnlr

end

theorem serFields_two_structs (st : SState) (a b : Str) (va vb : V) (st' : SState)
    (hva : isStructV va = true) (hvb : isStructV vb = true)
    (hnl : nlTerm st.output)
    (h : serFields st [(a, va), (b, vb)] = .ok st') :
    ∃ b1 b2, st'.output =
      st.output ++ ('[' :: a ++ strL "]\n") ++ b1 ++ ('[' :: b ++ strL "]\n") ++ b2 := by
  rw [serFields] at h
  simp only [hva, if_true, reduceIte] at h
  rw [no_newline_insert st hnl] at h
  cases hsa : serValue ⟨[], some a, st.sectionNames⟩ va with
  | error e => rw [hsa] at h; exact Except.noConfusion h
  | ok na =>
    rw [hsa] at h
    dsimp only at h
    have hna : nlTerm na.output := by
      rcases serValue_chunk va _ _ hva hsa with ⟨dn, hdn, hnln⟩
      simp only [List.nil_append] at hdn
      rw [hdn]
      exact hnln
    rw [serFields] at h
    simp only [hvb, if_true, reduceIte] at h
    have hnl2 : nlTerm (st.output ++ '[' :: a ++ strL "]\n" ++ na.output) := by
      have := nlTerm_append _ _ (nlTerm_append _ _ hnl (nlTerm_header a)) hna
      simpa using this
    have hcond : ¬(st.output ++ '[' :: a ++ strL "]\n" ++ na.output ≠ [] ∧
        List.getLast? (st.output ++ '[' :: a ++ strL "]\n" ++ na.output) ≠ some '\n') := by
      intro hc
      exact hc.2 (nlTerm_last _ hnl2 hc.1)
    rw [if_neg hcond] at h
    cases hsb : serValue ⟨[], some b, st.sectionNames⟩ vb with
    | error e => rw [hsb] at h; exact Except.noConfusion h
    | ok nb =>
      rw [hsb] at h
      dsimp only at h
      rw [serFields] at h
      have hst : st' = _ := (Except.ok.inj h).symm
      refine ⟨na.output, nb.output, ?_⟩
      rw [hst]
      simp

/-- C3 amended: `serialize_field` emits fields strictly in declaration
order.  For a record declaring a scalar field first and then two
record-typed fields `a` and `b`, the output is the scalar field's chunk —
a `key = value` line, a commented `; key = ` line, or nothing — followed
by `[a]` with `a`'s body and then `[b]` with `b`'s body, so `[a]` precedes
`[b]` and the scalar line precedes both headers.  (Scalars declared after
a record field do not precede the headers: see `c3_counterexample`.) -/
theorem c3_amended_fields_in_declaration_order (n sk : Str) (vs : V) (a b : Str)
    (va vb : V) (out : Str)
    (hvs : isStructV vs = false) (hva : isStructV va = true) (hvb : isStructV vb = true)
    (henc : to_string (V.record n [(sk, vs), (a, va), (b, vb)]) = .ok out) :
    ∃ c0 b1 b2,
      out = c0 ++ ('[' :: a ++ strL "]\n") ++ b1 ++ ('[' :: b ++ strL "]\n") ++ b2 ∧
      (c0 = [] ∨ c0 = strL "; " ++ sk ++ strL " = \n" ∨
        ∃ r, c0 = sk ++ strL " = " ++ escape_value r ++ ['\n']) := by
  unfold to_string at henc
  have hnames : collectSections (V.record n [(sk, vs), (a, va), (b, vb)]) = [a, b] := by
    simp [collectSections, hvs, hva, hvb]
  rw [hnames, serValue] at henc
  simp only [reduceIte] at henc
  rw [serFields] at henc
  simp only [hvs, Bool.false_eq_true, if_false, reduceIte] at henc
  cases htemp : serValue ⟨[], some [], [a, b]⟩ vs with
  | error e => rw [htemp] at henc; exact Except.noConfusion henc
  | ok temp =>
    rw [htemp] at henc
    dsimp only at henc
    by_cases hemp : temp.output = []
    · rw [if_pos hemp] at henc
      by_cases hmem : sk ∈ [a, b]
      · rw [if_pos hmem] at henc
        cases hrest : serFields ⟨[], some [], [a, b]⟩ [(a, va), (b, vb)] with
        | error e => rw [hrest] at henc; exact Except.noConfusion henc
        | ok stf =>
          rw [hrest] at henc
          rcases serFields_two_structs _ a b va vb _ hva hvb (Or.inl rfl) hrest with
            ⟨b1, b2, hout⟩
          refine ⟨[], b1, b2, ?_, Or.inl rfl⟩
          have : out = stf.output := by
            simpa [Except.map] using henc.symm
          rw [this, hout]
      · rw [if_neg hmem] at henc
        cases hrest : serFields (write_commented_key ⟨[], some [], [a, b]⟩ sk)
            [(a, va), (b, vb)] with
        | error e => rw [hrest] at henc; exact Except.noConfusion henc
        | ok stf =>
          rw [hrest] at henc
          rcases serFields_two_structs _ a b va vb _ hva hvb
            (by simpa [write_commented_key] using nlTerm_comment sk) hrest with ⟨b1, b2, hout⟩
          refine ⟨strL "; " ++ sk ++ strL " = \n", b1, b2, ?_, Or.inr (Or.inl rfl)⟩
          have : out = stf.output := by
            simpa [Except.map] using henc.symm
          rw [this, hout]
          simp [write_commented_key]
    · rw [if_neg hemp] at henc
      cases hrest : serFields (write_key_value ⟨[], some [], [a, b]⟩ sk temp.output)
          [(a, va), (b, vb)] with
      | error e => rw [hrest] at henc; exact Except.noConfusion henc
      | ok stf =>
        rw [hrest] at henc
        rcases serFields_two_structs _ a b va vb _ hva hvb
          (by simpa [write_key_value] using nlTerm_kv sk temp.output) hrest with ⟨b1, b2, hout⟩
        refine ⟨sk ++ strL " = " ++ escape_value temp.output ++ ['\n'], b1, b2, ?_,
          Or.inr (Or.inr ⟨temp.output, rfl⟩)⟩
        have : out = stf.output := by
          simpa [Except.map] using henc.symm
        rw [this, hout]
        simp [write_key_value]

theorem c3_amended_witness :
    isStructV (V.int 1) = false ∧ isStructV (V.record (strL "A") []) = true ∧
    isStructV (V.record (strL "B") []) = true ∧
    (∃ c0 b1 b2,
      strL "s = 1\n[a]\n[b]\n" =
        c0 ++ ('[' :: strL "a" ++ strL "]\n") ++ b1 ++ ('[' :: strL "b" ++ strL "]\n") ++ b2 ∧
      (c0 = [] ∨ c0 = strL "; " ++ strL "s" ++ strL " = \n" ∨
        ∃ r, c0 = strL "s" ++ strL " = " ++ escape_value r ++ ['\n'])) :=
  ⟨rfl, rfl, rfl,
    c3_amended_fields_in_declaration_order (strL "Config") (strL "s") (V.int 1)
      (strL "a") (strL "b") (V.record (strL "A") []) (V.record (strL "B") [])
      (strL "s = 1\n[a]\n[b]\n") rfl rfl rfl rfl⟩

/-!  Decimal rendering round-trips through parsing (needed for the
round-trip claim C1). -/

theorem natDigitsAux_acc (fuel : Nat) : ∀ (n : Nat) (acc : Str),
    natDigitsAux fuel n acc = natDigitsAux fuel n [] ++ acc := by
  induction fuel with
  | zero => intro n acc; rfl
  | succ f ih =>
    intro n acc
    by_cases hn : n < 10
    · simp [natDigitsAux, hn]
    · simp only [natDigitsAux, hn, if_false, reduceIte]
      rw [ih (n / 10) (digCh (n % 10) :: acc), ih (n / 10) [digCh (n % 10)]]
      simp

theorem natDigitsAux_congr (n : Nat) : ∀ (f f' : Nat) (acc : Str), n < f → n < f' →
    natDigitsAux f n acc = natDigitsAux f' n acc := by
  induction n using Nat.strong_induction_on with
  | _ n ih =>
    intro f f' acc hf hf'
    cases f with
    | zero => exact absurd hf (Nat.not_lt_zero n)
    | succ g =>
      cases f' with
      | zero => exact absurd hf' (Nat.not_lt_zero n)
      | succ g' =>
        by_cases hn : n < 10
        · simp [natDigitsAux, hn]
        · simp only [natDigitsAux, hn, if_false, reduceIte]
          exact ih (n / 10) (by omega) g g' _ (by omega) (by omega)

theorem renderNat_step (n : Nat) (hn : ¬ n < 10) :
    renderNat n = renderNat (n / 10) ++ [digCh (n % 10)] := by
  rw [renderNat, renderNat]
  rw [show natDigitsAux (n + 1) n [] = natDigitsAux n (n / 10) [digCh (n % 10)] from by
    simp [natDigitsAux, hn]]
  rw [natDigitsAux_acc]
  congr 1
  exact natDigitsAux_congr (n / 10) n (n / 10 + 1) [] (by omega) (by omega)

theorem renderNat_small (n : Nat) (hn : n < 10) : renderNat n = [digCh n] := by
  simp [renderNat, natDigitsAux, hn]

theorem isDig_digCh (m : Nat) (hm : m < 10) : isDig (digCh m) = true := by
  interval_cases m <;> decide

theorem digCh_toNat (m : Nat) (hm : m < 10) : (digCh m).toNat = 48 + m := by
  interval_cases m <;> decide

theorem renderNat_digits (n : Nat) : ∀ c ∈ renderNat n, isDig c = true := by
  induction n using Nat.strong_induction_on with
  | _ n ih =>
    by_cases hn : n < 10
    · rw [renderNat_small n hn]
      intro c hc
      rw [List.mem_singleton.mp hc]
      exact isDig_digCh n hn
    · rw [renderNat_step n hn]
      intro c hc
      rcases List.mem_append.mp hc with h | h
      · exact ih (n / 10) (by omega) c h
      · rw [List.mem_singleton.mp h]
        exact isDig_digCh (n % 10) (by omega)

theorem renderNat_ne_nil (n : Nat) : renderNat n ≠ [] := by
  by_cases hn : n < 10
  · rw [renderNat_small n hn]; simp
  · rw [renderNat_step n hn]; simp

theorem parseNatAux_append_split (xs ys : Str) : ∀ a,
    parseNatAux (xs ++ ys) a =
      match parseNatAux xs a with
      | some m => parseNatAux ys m
      | none => none := by
  induction xs with
  | nil => intro a; rfl
  | cons c t ih =>
    intro a
    by_cases hc : isDig c = true
    · simp [parseNatAux, hc, ih]
    · simp [parseNatAux, hc]

theorem parseNatAux_renderNat (n : Nat) : ∀ a,
    parseNatAux (renderNat n) a = some (a * 10 ^ (renderNat n).length + n) := by
  induction n using Nat.strong_induction_on with
  | _ n ih =>
    intro a
    by_cases hn : n < 10
    · rw [renderNat_small n hn]
      simp only [parseNatAux, isDig_digCh n hn, if_true, reduceIte, List.length_singleton]
      rw [digCh_toNat n hn]
      congr 1
      omega
    · rw [renderNat_step n hn]
      rw [parseNatAux_append_split, ih (n / 10) (by omega) a]
      simp only [parseNatAux, isDig_digCh (n % 10) (by omega), if_true, reduceIte]
      rw [digCh_toNat (n % 10) (by omega)]
      simp only [List.length_append, List.length_singleton]
      congr 1
      have h10 : 10 ^ ((renderNat (n / 10)).length + 1) =
          10 ^ (renderNat (n / 10)).length * 10 := by ring
      rw [h10]
      have := Nat.div_add_mod n 10
      ring_nf
      omega

theorem parseNatStr_renderNat (n : Nat) : parseNatStr (renderNat n) = some n := by
  rw [parseNatStr.eq_def]
  split
  · next heq => exact absurd heq (renderNat_ne_nil n)
  · rw [parseNatAux_renderNat n 0]
    simp

theorem isDig_ne (c x : Char) (h : isDig c = true) (hx : isDig x = false) : c ≠ x := by
  intro he
  rw [he, hx] at h
  exact Bool.noConfusion h

theorem parseI64_renderInt (n : Int) (h1 : -(2 ^ 63 : Int) ≤ n) (h2 : n < 2 ^ 63) :
    parseI64 (renderInt n) = some n := by
  by_cases hn : n < 0
  · rw [renderInt, if_pos hn]
    simp only [parseI64, if_true, reduceIte]
    rw [parseNatStr_renderNat n.natAbs, Option.some_bind]
    have hb : n.natAbs ≤ 2 ^ 63 := by omega
    rw [if_pos hb]
    congr 1
    omega
  · rw [renderInt, if_neg hn]
    obtain ⟨c, r, hcr⟩ : ∃ c r, renderNat n.toNat = c :: r := by
      cases hrn : renderNat n.toNat with
      | nil => exact absurd hrn (renderNat_ne_nil _)
      | cons c r => exact ⟨c, r, rfl⟩
    have hcd : isDig c = true :=
      renderNat_digits n.toNat c (by rw [hcr]; exact List.mem_cons_self c r)
    have hcm : c ≠ '-' := isDig_ne c '-' hcd (by decide)
    have hcp : c ≠ '+' := isDig_ne c '+' hcd (by decide)
    rw [hcr]
    simp only [parseI64, hcm, hcp, if_false, reduceIte]
    rw [← hcr, parseNatStr_renderNat n.toNat, Option.some_bind]
    have hb : n.toNat ≤ 2 ^ 63 - 1 := by omega
    rw [if_pos hb]
    congr 1
    omega

/-!  Well-formedness predicates for the amended round-trip claim (C1):
values whose scalar renderings survive the wire format. -/

theorem fldOk_not_struct {t : Ty} {v : V} (h : FldOk t v) : isStructV v = false := by
  cases h with
  | scal hs => cases hs <;> rfl
  | optSome hs => cases hs <;> rfl
  | optNone t => rfl

theorem serValue_renderS {t : Ty} {v : V} (h : FldOk t v) (o : Str) (cs : Option Str)
    (names : List Str) :
    serValue ⟨o, cs, names⟩ v = .ok ⟨o ++ renderS v, cs, names⟩ := by
  cases h with
  | scal hs =>
    cases hs with
    | bool b => cases b <;> rfl
    | int n => rfl
    | str s => rfl
    | char c => rfl
  | optSome hs =>
    cases hs with
    | bool b => cases b <;> rfl
    | int n => rfl
    | str s => rfl
    | char c => rfl
  | optNone t => simp [serValue, renderS]

theorem scalOk_coerce {t : Ty} {v : V} (h : ScalOk t v) : coerce t (renderS v) = .ok v := by
  cases h with
  | bool b => cases b <;> rfl
  | int n h1 h2 =>
    simp only [renderS, coerce]
    rw [parseI64_renderInt n h1 h2]
  | str s _ _ _ _ => rfl
  | char c _ _ hsz =>
    have hlen : utf8Len (renderS (V.char c)) = 1 := by
      simp [renderS, utf8Len, hsz]
    simp only [renderS] at hlen ⊢
    rw [show coerce Ty.char [c] =
      (if utf8Len [c] = 1 then
        match [c] with
        | c :: _ => Except.ok (V.char c)
        | [] => Except.error (Err.invalidValue (strL "char") [c])
       else Except.error (Err.invalidValue (strL "char") [c])) from rfl, if_pos hlen]

theorem fldOk_present_coerce {t : Ty} {v : V} (h : FldOk t v) (hne : renderS v ≠ []) :
    coerce t (renderS v) = .ok v := by
  cases h with
  | scal hs => exact scalOk_coerce hs
  | optSome hs =>
    simp only [renderS, coerce]
    rw [show renderS _ = renderS _ from rfl, scalOk_coerce hs]
    rfl
  | optNone t => exact absurd rfl hne

theorem mem_of_head?_some {l : Str} {c : Char} (h : l.head? = some c) : c ∈ l := by
  cases l with
  | nil => exact Option.noConfusion h
  | cons x t =>
    have hx : x = c := by injection h
    rw [← hx]
    exact List.mem_cons_self x t

/-- Raw renderings of well-formed scalars: nonempty, backslash-free, and
with edge characters that survive `str::trim`. -/
theorem scalOk_rawOk {t : Ty} {v : V} (h : ScalOk t v) :
    renderS v ≠ [] ∧ '\\' ∉ renderS v ∧
      (∀ c, (renderS v).head? = some c → edgeOk c = true) ∧
      (∀ c, (renderS v).getLast? = some c → edgeOk c = true) := by
  cases h with
  | bool b => cases b <;> exact ⟨by decide, by decide, by decide, by decide⟩
  | int n h1 h2 =>
    have hmem : ∀ c ∈ renderInt n, isDig c = true ∨ c = '-' := by
      intro c hc
      rw [renderInt] at hc
      split at hc
      · rcases List.mem_cons.mp hc with h | h
        · exact Or.inr h
        · exact Or.inl (renderNat_digits _ c h)
      · exact Or.inl (renderNat_digits _ c hc)
    have hedge : ∀ c ∈ renderInt n, edgeOk c = true ∧ c ≠ '\\' := by
      intro c hc
      rcases hmem c hc with h | h
      · have hb : 48 ≤ c.toNat ∧ c.toNat ≤ 57 := by
          simp only [isDig, Bool.and_eq_true, decide_eq_true_eq] at h
          exact h
        have hws : isWsChar c = false := by
          by_contra hw
          have hr := isWsChar_toNat (by simpa using hw)
          omega
        refine ⟨by simp [edgeOk, hws], isDig_ne c '\\' h (by decide)⟩
      · subst h
        exact ⟨by decide, by decide⟩
    have hnil : renderInt n ≠ [] := by
      rw [renderInt]
      split
      · simp
      · exact renderNat_ne_nil _
    refine ⟨hnil, ?_, ?_, ?_⟩
    · intro hm
      exact (hedge '\\' hm).2 rfl
    · intro c hh
      exact (hedge c (mem_of_head?_some hh)).1
    · intro c hl
      exact (hedge c (List.mem_of_getLast?_eq_some hl)).1
  | str s h1 h2 h3 h4 => exact ⟨h1, h2, h3, h4⟩
  | char c h1 h2 h3 =>
    refine ⟨by simp [renderS], ?_, ?_, ?_⟩
    · simp only [renderS, List.mem_singleton]
      exact fun he => h2 he.symm
    · simp only [renderS, List.head?_cons]
      intro d he
      have hd : c = d := by injection he
      exact hd ▸ h1
    · simp only [renderS]
      intro d he
      have hd : c = d := by simpa using he
      exact hd ▸ h1

/-!  Edge properties of escaped renderings: an escaped well-formed raw
string makes a well-formed `key = value` line. -/

theorem escCharRem_ne_nil (rem : List (Char × Char)) (c : Char) :
    escCharRem rem c ≠ [] := by
  unfold escCharRem
  cases rem.find? (fun p => p.1 = c) <;> simp

theorem flatMap_ne_nil {f : Char → Str} {l : Str} (hne : l ≠ [])
    (hf : ∀ x ∈ l, f x ≠ []) : l.flatMap f ≠ [] := by
  cases l with
  | nil => exact absurd rfl hne
  | cons x t =>
    simp only [List.flatMap_cons]
    intro hc
    exact hf x (List.mem_cons_self x t) (List.append_eq_nil.mp hc).1

theorem flatMap_head? {f : Char → Str} {l : Str} {c : Char} (h : l.head? = some c)
    (hf : f c ≠ []) : (l.flatMap f).head? = (f c).head? := by
  cases l with
  | nil => exact Option.noConfusion h
  | cons x t =>
    have hx : x = c := by injection h
    subst hx
    simp only [List.flatMap_cons, List.head?_append]
    cases hfc : (f x).head? with
    | none => exact absurd (List.head?_eq_none_iff.mp hfc) hf
    | some d => rfl

theorem flatMap_getLast? {f : Char → Str} {l : Str} {c : Char} (h : l.getLast? = some c)
    (hf : ∀ x ∈ l, f x ≠ []) : (l.flatMap f).getLast? = (f c).getLast? := by
  induction l with
  | nil => exact Option.noConfusion h
  | cons x t ih =>
    cases ht : t with
    | nil =>
      subst ht
      have hx : x = c := by
        have : (x :: ([] : Str)).getLast? = some x := rfl
        rw [this] at h
        injection h
      subst hx
      simp
    | cons y u =>
      rw [← ht]
      have htne : t ≠ [] := by rw [ht]; simp
      have hlast : t.getLast? = some c := by
        rw [ht]
        rw [ht, List.getLast?_cons_cons] at h
        exact h
      have hmt : t.flatMap f ≠ [] :=
        flatMap_ne_nil htne fun y hy => hf y (List.mem_cons_of_mem x hy)
      simp only [List.flatMap_cons, List.getLast?_append]
      rw [ih hlast fun y hy => hf y (List.mem_cons_of_mem x hy)]
      cases hfc : (f c).getLast? with
      | none =>
        have : f c = [] := List.getLast?_eq_none_iff.mp hfc
        exact absurd this (hf c (by
          rw [← ht] at *
          exact List.mem_cons_of_mem x (List.mem_of_getLast?_eq_some hlast)))
      | some d => rfl

theorem escPairs_mem_iff (c : Char) :
    (escPairs.find? (fun p => p.1 = c) = none) →
      c ≠ '\n' ∧ c ≠ '\r' ∧ c ≠ '\t' := by
  intro h
  have hall := List.find?_eq_none.mp h
  refine ⟨?_, ?_, ?_⟩
  · intro he; subst he; exact hall ('\n', 'n') (by decide) (by decide)
  · intro he; subst he; exact hall ('\r', 'r') (by decide) (by decide)
  · intro he; subst he; exact hall ('\t', 't') (by decide) (by decide)

theorem edgeOk_not_escaped {c : Char} (hc : edgeOk c = true)
    (h1 : c ≠ '\n') (h2 : c ≠ '\r') (h3 : c ≠ '\t') : isWsChar c = false := by
  simp only [edgeOk, Bool.or_eq_true, Bool.not_eq_true', beq_iff_eq] at hc
  rcases hc with ((hc | hc) | hc) | hc
  · exact hc
  · exact absurd hc h1
  · exact absurd hc h2
  · exact absurd hc h3

theorem escCharRem_head_not_ws (c : Char) (hc : edgeOk c = true) :
    ∀ d, (escCharRem escPairs c).head? = some d → isWsChar d = false := by
  intro d hd
  unfold escCharRem at hd
  cases hf : escPairs.find? (fun p => p.1 = c) with
  | some p =>
    rw [hf] at hd
    simp only [List.head?_cons] at hd
    have hdd : '\\' = d := by injection hd
    rw [← hdd]
    decide
  | none =>
    rw [hf] at hd
    simp only [List.head?_cons] at hd
    have hdc : c = d := by injection hd
    subst hdc
    obtain ⟨h1, h2, h3⟩ := escPairs_mem_iff c hf
    exact edgeOk_not_escaped hc h1 h2 h3

theorem escPairs_codes_not_ws : ∀ p ∈ escPairs, isWsChar p.2 = false := by decide

theorem escCharRem_last_not_ws (c : Char) (hc : edgeOk c = true) :
    ∀ d, (escCharRem escPairs c).getLast? = some d → isWsChar d = false := by
  intro d hd
  unfold escCharRem at hd
  cases hf : escPairs.find? (fun p => p.1 = c) with
  | some p =>
    rw [hf] at hd
    have hdd : p.2 = d := by
      have : (['\\', p.2] : Str).getLast? = some p.2 := rfl
      rw [this] at hd
      injection hd
    rw [← hdd]
    exact escPairs_codes_not_ws p (List.mem_of_find?_eq_some hf)
  | none =>
    rw [hf] at hd
    have hdc : c = d := by
      have : ([c] : Str).getLast? = some c := rfl
      rw [this] at hd
      injection hd
    subst hdc
    obtain ⟨h1, h2, h3⟩ := escPairs_mem_iff c hf
    exact edgeOk_not_escaped hc h1 h2 h3

theorem escCharRem_no_nl (c : Char) : '\n' ∉ escCharRem escPairs c := by
  unfold escCharRem
  cases hf : escPairs.find? (fun p => p.1 = c) with
  | some p =>
    have hp := List.mem_of_find?_eq_some hf
    have hp2 : p.2 ≠ '\n' := by
      have hall : ∀ q ∈ escPairs, q.2 ≠ '\n' := by decide
      exact hall p hp
    intro hcon
    rcases List.mem_cons.mp hcon with h | h
    · exact absurd h (by decide)
    · rcases List.mem_cons.mp h with h2 | h2
      · exact hp2 h2.symm
      · exact absurd h2 (List.not_mem_nil _)
  | none =>
    have hcn : c ≠ '\n' := by
      intro he
      subst he
      exact (List.find?_eq_none.mp hf) ('\n', 'n') (by decide) (by decide)
    simp only [List.mem_singleton]
    exact fun h => hcn h.symm

/-- Properties of the escaped rendering `escape_value s` for a raw string
satisfying the edge conditions: it is nonempty, newline-free, and has no
whitespace at either end — so it survives the parser's trim intact. -/
theorem escape_props (s : Str) (hne : s ≠ []) (hbs : '\\' ∉ s)
    (hh : ∀ c, s.head? = some c → edgeOk c = true)
    (hl : ∀ c, s.getLast? = some c → edgeOk c = true) :
    escape_value s ≠ [] ∧
      (∀ c, (escape_value s).head? = some c → isWsChar c = false) ∧
      (∀ c, (escape_value s).getLast? = some c → isWsChar c = false) ∧
      '\n' ∉ escape_value s := by
  rw [escape_flatMap s hbs]
  have hfne : ∀ x ∈ s, escCharRem escPairs x ≠ [] := fun x _ => escCharRem_ne_nil _ x
  obtain ⟨c0, hc0⟩ : ∃ c0, s.head? = some c0 := by
    cases s with
    | nil => exact absurd rfl hne
    | cons x t => exact ⟨x, rfl⟩
  obtain ⟨c1, hc1⟩ : ∃ c1, s.getLast? = some c1 := by
    cases hgl : s.getLast? with
    | none => exact absurd (List.getLast?_eq_none_iff.mp hgl) hne
    | some d => exact ⟨d, rfl⟩
  have hc0s : edgeOk c0 = true := hh c0 hc0
  have hc1s : edgeOk c1 = true := hl c1 hc1
  refine ⟨flatMap_ne_nil hne hfne, ?_, ?_, ?_⟩
  · intro c hch
    rw [flatMap_head? hc0 (escCharRem_ne_nil _ c0)] at hch
    exact escCharRem_head_not_ws c0 hc0s c hch
  · intro c hcl
    rw [flatMap_getLast? hc1 hfne] at hcl
    exact escCharRem_last_not_ws c1 hc1s c hcl
  · intro hm
    obtain ⟨x, _, hx2⟩ := List.mem_flatMap.mp hm
    exact escCharRem_no_nl x hx2

/-!  Closed forms for the serializer on well-formed records. -/

theorem fldChunk_nlTerm (names : List Str) (k : Str) (v : V) :
    nlTerm (fldChunk names k v) := by
  unfold fldChunk
  split
  · split
    · exact Or.inl rfl
    · exact nlTerm_comment k
  · exact nlTerm_kv k (renderS v)

theorem chunksOf_nlTerm (names : List Str) (fs : List (Str × V)) :
    nlTerm (chunksOf names fs) := by
  induction fs with
  | nil => exact Or.inl rfl
  | cons kv rest ih =>
    obtain ⟨k, v⟩ := kv
    exact nlTerm_append _ _ (fldChunk_nlTerm names k v) ih

theorem serFields_fld_cons {t : Ty} {v : V} (h : FldOk t v) (st : SState) (k : Str)
    (rest : List (Str × V)) :
    serFields st ((k, v) :: rest) =
      serFields { st with output := st.output ++ fldChunk st.sectionNames k v } rest := by
  rw [serFields]
  rw [if_neg (by rw [fldOk_not_struct h]; simp)]
  rw [serValue_renderS h [] st.currentSection st.sectionNames]
  dsimp only
  by_cases hemp : ([] : Str) ++ renderS v = []
  · rw [if_pos hemp]
    have hrv : renderS v = [] := by simpa using hemp
    by_cases hmem : k ∈ st.sectionNames
    · rw [if_pos hmem]
      congr 1
      simp [fldChunk, hrv, hmem]
    · rw [if_neg hmem]
      congr 1
      simp [write_commented_key, fldChunk, hrv, hmem]
  · rw [if_neg hemp]
    have hrv : renderS v ≠ [] := by simpa using hemp
    congr 1
    simp [write_key_value, fldChunk, hrv]

theorem serFields_scalars {stf : List (Str × Ty)} {svf : List (Str × V)}
    (hf : FieldsOk stf svf) : ∀ (st : SState) (rest : List (Str × V)),
    serFields st (svf ++ rest) =
      serFields { st with output := st.output ++ chunksOf st.sectionNames svf } rest := by
  induction hf with
  | nil =>
    intro st rest
    congr 1
    simp [chunksOf]
  | cons hk hv hrest ih =>
    intro st rest
    rw [List.cons_append, serFields_fld_cons hv st _ _, ih]
    congr 1
    simp [chunksOf]

theorem serFields_scalars_total {stf : List (Str × Ty)} {svf : List (Str × V)}
    (hf : FieldsOk stf svf) (st : SState) :
    serFields st svf = .ok { st with output := st.output ++ chunksOf st.sectionNames svf } := by
  have h := serFields_scalars hf st []
  rw [List.append_nil] at h
  rw [h, serFields]

theorem serFields_blocks {rtf : List (Str × Ty)} {rvf : List (Str × V)}
    (hr : RecFOk rtf rvf) : ∀ (st : SState), nlTerm st.output →
    serFields st rvf = .ok { st with output := st.output ++ secBlocks st.sectionNames rvf } := by
  induction hr with
  | nil =>
    intro st _
    rw [serFields]
    congr 1
    simp [secBlocks]
  | @cons a na fa ga ts vs hk hfa hnd hts ih =>
    intro st hnl
    rw [serFields]
    rw [if_pos (by simp [isStructV])]
    rw [no_newline_insert st hnl]
    rw [show serValue ⟨[], some a, st.sectionNames⟩ (V.record na ga) =
        serFields ⟨[], some a, st.sectionNames⟩ ga from by
      rw [serValue]
      congr 1]
    rw [serFields_scalars_total hfa ⟨[], some a, st.sectionNames⟩]
    dsimp only
    rw [ih _ (by
      have hx := nlTerm_append _ _ (nlTerm_append _ _ hnl (nlTerm_header a))
        (chunksOf_nlTerm st.sectionNames ga)
      simpa using hx)]
    congr 1
    simp [secBlocks, recFieldsOf]

theorem collectSections_good {stf : List (Str × Ty)} {svf : List (Str × V)}
    {rtf : List (Str × Ty)} {rvf : List (Str × V)}
    (hs : FieldsOk stf svf) (hr : RecFOk rtf rvf) (n : Str) :
    collectSections (V.record n (svf ++ rvf)) = rvf.map Prod.fst := by
  rw [collectSections]
  rw [List.filterMap_append]
  have h1 : List.filterMap (fun kv => if isStructV kv.2 = true then some kv.1 else none) svf
      = [] := by
    clear hr
    induction hs with
    | nil => rfl
    | cons hk hv hrest ih =>
      simp only [List.filterMap_cons, fldOk_not_struct hv, Bool.false_eq_true, if_false,
        reduceIte]
      exact ih
  have h2 : List.filterMap (fun kv => if isStructV kv.2 = true then some kv.1 else none) rvf
      = rvf.map Prod.fst := by
    clear hs h1
    induction hr with
    | nil => rfl
    | cons hk hfa hnd hts ih =>
      simp only [List.filterMap_cons, isStructV, if_true, reduceIte, List.map_cons]
      rw [ih]
  rw [h1, h2]
  rfl

/-- Closed form of `to_string` on a well-formed record: the scalar chunks
followed by the section blocks. -/
theorem to_string_good (n : Str) {stf : List (Str × Ty)} {svf : List (Str × V)}
    {rtf : List (Str × Ty)} {rvf : List (Str × V)}
    (hs : FieldsOk stf svf) (hr : RecFOk rtf rvf) :
    to_string (V.record n (svf ++ rvf)) =
      .ok (chunksOf (rvf.map Prod.fst) svf ++ secBlocks (rvf.map Prod.fst) rvf) := by
  rw [to_string, collectSections_good hs hr n, serValue]
  simp only [reduceIte]
  rw [serFields_scalars hs ⟨[], some [], rvf.map Prod.fst⟩ rvf]
  dsimp only
  rw [serFields_blocks hr _ (by simpa using chunksOf_nlTerm (rvf.map Prod.fst) svf)]
  simp [Except.map]

/-!  The serializer's output, viewed as a list of lines. -/

theorem textOf_append (xs ys : List Str) : textOf (xs ++ ys) = textOf xs ++ textOf ys := by
  induction xs with
  | nil => rfl
  | cons l t ih => simp [textOf, ih]

theorem fldChunk_line (names : List Str) (k : Str) (v : V) :
    fldChunk names k v =
      (match lineOfFld names k v with
       | none => []
       | some l => l ++ ['\n']) := by
  unfold fldChunk lineOfFld
  by_cases hemp : renderS v = []
  · rw [if_pos hemp, if_pos hemp]
    by_cases hmem : k ∈ names
    · rw [if_pos hmem, if_pos hmem]
    · rw [if_neg hmem, if_neg hmem]
      simp [strL]
  · rw [if_neg hemp, if_neg hemp]

theorem chunksOf_textOf (names : List Str) (fs : List (Str × V)) :
    chunksOf names fs = textOf (scalarLines names fs) := by
  induction fs with
  | nil => rfl
  | cons kv rest ih =>
    obtain ⟨k, v⟩ := kv
    rw [chunksOf, fldChunk_line, ih]
    simp only [scalarLines, List.filterMap_cons]
    cases lineOfFld names k v with
    | none => rfl
    | some l => simp [textOf, scalarLines]

theorem secBlocks_textOf (names : List Str) (fs : List (Str × V)) :
    secBlocks names fs = textOf (blockLines names fs) := by
  induction fs with
  | nil => rfl
  | cons kv rest ih =>
    obtain ⟨a, v⟩ := kv
    rw [secBlocks, ih, blockLines, textOf, textOf_append, chunksOf_textOf]
    simp [strL]

theorem textOf_eq_nil {ls : List Str} : textOf ls = [] ↔ ls = [] := by
  cases ls with
  | nil => simp [textOf]
  | cons l t =>
    simp only [textOf]
    constructor
    · intro h
      exact absurd (List.append_eq_nil.mp h).2 (by simp)
    · intro h
      exact List.noConfusion h

theorem textOf_getLast_nl {ls : List Str} (h : ls ≠ []) :
    (textOf ls).getLast? = some '\n' := by
  induction ls with
  | nil => exact absurd rfl h
  | cons l t ih =>
    rw [textOf]
    by_cases ht : t = []
    · subst ht
      rw [show l ++ '\n' :: textOf [] = l ++ ['\n'] from rfl]
      exact List.getLast?_concat l
    · rw [show l ++ '\n' :: textOf t = (l ++ ['\n']) ++ textOf t by simp]
      rw [List.getLast?_append, ih ht]
      rfl

theorem linesOf_textOf {ls : List Str} (h : ∀ l ∈ ls, '\n' ∉ l) :
    linesOf (textOf ls) = ls := by
  induction ls with
  | nil => rfl
  | cons l t ih =>
    rw [textOf]
    have hne : l ++ '\n' :: textOf t ≠ [] := by simp
    have hlast : (l ++ '\n' :: textOf t).getLast? = some '\n' := by
      rw [show l ++ '\n' :: textOf t = textOf (l :: t) from rfl]
      exact textOf_getLast_nl (by simp)
    rw [linesOf, if_neg hne, if_pos hlast]
    rw [splitChar_append_cons '\n' l (textOf t) (h l (List.mem_cons_self l t))]
    by_cases ht : t = []
    · subst ht
      simp [splitChar, textOf]
    · have hlt : linesOf (textOf t) = t := ih fun x hx => h x (List.mem_cons_of_mem l hx)
      have htne : textOf t ≠ [] := fun hc => ht (textOf_eq_nil.mp hc)
      rw [linesOf, if_neg htne, if_pos (textOf_getLast_nl ht)] at hlt
      rw [List.dropLast_cons_of_ne_nil (splitChar_ne_nil '\n' (textOf t)), hlt]

/-!  The parsed form of the serializer's output. -/

theorem insertT_insertT_same (l : Table) (k : Str) (a b : Sec) :
    insertT (insertT l k a) k b = insertT l k b := by
  induction l with
  | nil => simp [insertT]
  | cons p rest ih =>
    by_cases h : p.1 = k
    · simp [insertT, h]
    · simp [insertT, h, ih]

theorem insertT_fresh_sec (l : Sec) (k : Str) (v : Str)
    (h : k ∉ l.map Prod.fst) : insertT l k v = l ++ [(k, v)] := by
  induction l with
  | nil => rfl
  | cons p rest ih =>
    have hp : p.1 ≠ k := fun he => h (by simp [he])
    have hr : k ∉ rest.map Prod.fst := fun hm => h (by simp [hm])
    simp [insertT, hp, ih hr]

theorem insertT_fresh_tbl (l : Table) (k : Str) (v : Sec)
    (h : k ∉ l.map Prod.fst) : insertT l k v = l ++ [(k, v)] := by
  induction l with
  | nil => rfl
  | cons p rest ih =>
    have hp : p.1 ≠ k := fun he => h (by simp [he])
    have hr : k ∉ rest.map Prod.fst := fun hm => h (by simp [hm])
    simp [insertT, hp, ih hr]

theorem insertT_lookup_self (l : Table) (k : Str) (v : Sec)
    (h : lookupT l k = some v) : insertT l k v = l := by
  induction l with
  | nil => exact Option.noConfusion h
  | cons p rest ih =>
    obtain ⟨a, b⟩ := p
    by_cases hp : a = k
    · subst hp
      rw [lookupT, if_pos rfl] at h
      have hv : b = v := Option.some.inj h
      subst hv
      simp [insertT]
    · rw [lookupT, if_neg hp] at h
      simp [insertT, hp, ih h]

theorem insertT_append_over (l l2 : Table) (k : Str) (x y : Sec)
    (h : k ∉ l.map Prod.fst) :
    insertT (l ++ (k, x) :: l2) k y = l ++ (k, y) :: l2 := by
  induction l with
  | nil => simp [insertT]
  | cons p rest ih =>
    have hp : p.1 ≠ k := fun he => h (by simp [he])
    have hr : k ∉ rest.map Prod.fst := fun hm => h (by simp [hm])
    simp [insertT, hp, ih hr]

theorem lookupT_append_right (l l2 : Table) (k : Str)
    (h : k ∉ l.map Prod.fst) :
    lookupT (l ++ l2) k = lookupT l2 k := by
  induction l with
  | nil => rfl
  | cons p rest ih =>
    have hp : p.1 ≠ k := fun he => h (by simp [he])
    have hr : k ∉ rest.map Prod.fst := fun hm => h (by simp [hm])
    simp [lookupT, hp, ih hr]

theorem fldOk_present_raw {t : Ty} {v : V} (h : FldOk t v) (hne : renderS v ≠ []) :
    '\\' ∉ renderS v ∧ (∀ c, (renderS v).head? = some c → edgeOk c = true) ∧
      (∀ c, (renderS v).getLast? = some c → edgeOk c = true) := by
  cases h with
  | scal hs => exact ⟨(scalOk_rawOk hs).2.1, (scalOk_rawOk hs).2.2.1, (scalOk_rawOk hs).2.2.2⟩
  | optSome hs => exact ⟨(scalOk_rawOk hs).2.1, (scalOk_rawOk hs).2.2.1, (scalOk_rawOk hs).2.2.2⟩
  | optNone t => exact absurd rfl hne

theorem fldOk_absent {t : Ty} {v : V} (h : FldOk t v) (hemp : renderS v = []) :
    (∃ t0, t = Ty.opt t0) ∧ v = V.opt none := by
  cases h with
  | scal hs => exact absurd hemp (scalOk_rawOk hs).1
  | optSome hs => exact absurd hemp (scalOk_rawOk hs).1
  | optNone t => exact ⟨⟨t, rfl⟩, rfl⟩

theorem fieldsOk_keys {stf : List (Str × Ty)} {svf : List (Str × V)}
    (h : FieldsOk stf svf) : stf.map Prod.fst = svf.map Prod.fst := by
  induction h with
  | nil => rfl
  | cons hk hf hrest ih => simpa using ih

theorem recFOk_keys {rtf : List (Str × Ty)} {rvf : List (Str × V)}
    (h : RecFOk rtf rvf) : rtf.map Prod.fst = rvf.map Prod.fst := by
  induction h with
  | nil => rfl
  | cons ha hfa hnd hrest ih => simpa using ih

theorem comment_line_no_nl (k : Str) (hk : plainKey k) :
    '\n' ∉ strL "; " ++ k ++ strL " = " := by
  intro hmem
  rcases List.mem_append.mp hmem with hmem | hmem
  · rcases List.mem_append.mp hmem with hmem | hmem
    · revert hmem
      decide
    · exact plainKey_not_nl k hk hmem
  · revert hmem
    decide

theorem kv_line_no_nl {t : Ty} {v : V} (k : Str) (hk : plainKey k) (hf : FldOk t v)
    (hne : renderS v ≠ []) :
    '\n' ∉ k ++ strL " = " ++ escape_value (renderS v) := by
  obtain ⟨hbs, hh, hl⟩ := fldOk_present_raw hf hne
  have hesc := (escape_props (renderS v) hne hbs hh hl).2.2.2
  intro hmem
  rcases List.mem_append.mp hmem with hmem | hmem
  · rcases List.mem_append.mp hmem with hmem | hmem
    · exact plainKey_not_nl k hk hmem
    · revert hmem
      decide
  · exact hesc hmem

theorem scalarLines_no_nl (names : List Str) {stf : List (Str × Ty)}
    {svf : List (Str × V)} (h : FieldsOk stf svf) :
    ∀ l ∈ scalarLines names svf, '\n' ∉ l := by
  induction h with
  | nil =>
    intro l hl
    simp [scalarLines] at hl
  | cons hk hf hrest ih =>
    intro l hl
    simp only [scalarLines, List.filterMap_cons] at hl
    rename_i k t v ts vs
    by_cases hemp : renderS v = []
    · rw [lineOfFld, if_pos hemp] at hl
      by_cases hmem : k ∈ names
      · rw [if_pos hmem] at hl
        exact ih l hl
      · rw [if_neg hmem] at hl
        rcases List.mem_cons.mp hl with hl | hl
        · subst hl
          exact comment_line_no_nl k hk
        · exact ih l hl
    · rw [lineOfFld, if_neg hemp] at hl
      rcases List.mem_cons.mp hl with hl | hl
      · subst hl
        exact kv_line_no_nl k hk hf hemp
      · exact ih l hl

theorem header_line_no_nl (a : Str) (ha : plainKey a) :
    '\n' ∉ '[' :: a ++ [']'] := by
  intro hmem
  rcases List.mem_cons.mp hmem with hmem | hmem
  · exact absurd hmem (by decide)
  · rcases List.mem_append.mp hmem with hmem | hmem
    · exact plainKey_not_nl a ha hmem
    · revert hmem
      decide

theorem blockLines_no_nl (names : List Str) {rtf : List (Str × Ty)}
    {rvf : List (Str × V)} (h : RecFOk rtf rvf) :
    ∀ l ∈ blockLines names rvf, '\n' ∉ l := by
  induction h with
  | nil =>
    intro l hl
    simp [blockLines] at hl
  | cons ha hfa hnd hrest ih =>
    intro l hl
    rename_i a na fa ga ts vs
    rw [blockLines] at hl
    rcases List.mem_cons.mp hl with hl | hl
    · subst hl
      exact header_line_no_nl a ha
    · rcases List.mem_append.mp hl with hl | hl
      · exact scalarLines_no_nl names hfa l (by simpa [recFieldsOf] using hl)
      · exact ih l hl

/-- A `[name]` header line sets the current section and stores a fresh
empty map under the name. -/
theorem parseLine_header (st : PState) (a : Str) :
    parseLine st ('[' :: (a ++ [']'])) = ⟨a, insertT st.sections a []⟩ := by
  have hline : trimStr ('[' :: (a ++ [']'])) = '[' :: (a ++ [']']) := by
    have h1 : trimLeft ('[' :: (a ++ [']'])) = '[' :: (a ++ [']']) :=
      trimLeft_cons_of_not_ws (by decide) _
    have h2 : trimRight (('[' :: a) ++ [']']) = ('[' :: a) ++ [']'] :=
      trimRight_concat_of_not_ws (by decide) _
    simp only [trimStr, h1]
    simpa using h2
  simp only [parseLine, hline]
  have hhead : ('[' :: (a ++ [']'])).head? = some '[' := rfl
  have hlast : ('[' :: (a ++ [']'])).getLast? = some ']' := by
    have : ('[' :: (a ++ [']'])) = ('[' :: a) ++ [']'] := by simp
    rw [this, List.getLast?_concat]
  simp [hhead, hlast]

/-- A line starting with `;` is skipped as a comment. -/
theorem parseLine_comment (st : PState) (rest : Str) :
    parseLine st (';' :: rest) = st :=
  parseLine_skip st _ (.inl (head?_trimStr_cons ';' rest (by decide)))

/-- Folding the parser over the scalar lines of a well-formed field list
appends exactly the present pairs to the current section. -/
theorem parse_scalars (names : List Str) {stf : List (Str × Ty)} {svf : List (Str × V)}
    (h : FieldsOk stf svf) :
    ∀ (cur : Str) (tbl : Table) (sec : Sec),
      lookupT tbl cur = some sec →
      (svf.map Prod.fst).Nodup →
      (∀ k ∈ svf.map Prod.fst, k ∉ sec.map Prod.fst) →
      List.foldl parseLine ⟨cur, tbl⟩ (scalarLines names svf) =
        ⟨cur, insertT tbl cur (sec ++ presentPairs svf)⟩ := by
  induction h with
  | nil =>
    intro cur tbl sec hlook hnd hfr
    simp only [scalarLines, List.filterMap_nil, List.foldl_nil, presentPairs,
      List.append_nil]
    rw [insertT_lookup_self tbl cur sec hlook]
  | cons hk hf hrest ih =>
    intro cur tbl sec hlook hnd hfr
    rename_i k t v ts vs
    have hnd' : (vs.map Prod.fst).Nodup := by
      simp only [List.map_cons] at hnd
      exact (List.nodup_cons.mp hnd).2
    have hknotin : k ∉ vs.map Prod.fst := by
      simp only [List.map_cons] at hnd
      exact (List.nodup_cons.mp hnd).1
    by_cases hemp : renderS v = []
    · have hpp : presentPairs ((k, v) :: vs) = presentPairs vs := by
        simp [presentPairs, hemp]
      have hfr' : ∀ x ∈ vs.map Prod.fst, x ∉ sec.map Prod.fst := fun x hm =>
        hfr x (by simp [hm])
      by_cases hmem : k ∈ names
      · have hsl : scalarLines names ((k, v) :: vs) = scalarLines names vs := by
          simp [scalarLines, lineOfFld, hemp, hmem]
        rw [hsl, hpp]
        exact ih cur tbl sec hlook hnd' hfr'
      · have hsl : scalarLines names ((k, v) :: vs) =
            (strL "; " ++ k ++ strL " = ") :: scalarLines names vs := by
          simp [scalarLines, lineOfFld, hemp, hmem]
        rw [hsl, hpp, List.foldl_cons]
        have hcl : strL "; " ++ k ++ strL " = " = ';' :: (' ' :: (k ++ strL " = ")) := by
          rw [show strL "; " = [';', ' '] from rfl]
          simp
        rw [hcl, parseLine_comment]
        exact ih cur tbl sec hlook hnd' hfr'
    · have hraw := fldOk_present_raw hf hemp
      have hesc := escape_props (renderS v) hemp hraw.1 hraw.2.1 hraw.2.2
      have hsl : scalarLines names ((k, v) :: vs) =
          (k ++ strL " = " ++ escape_value (renderS v)) :: scalarLines names vs := by
        simp [scalarLines, lineOfFld, hemp]
      have hpp : presentPairs ((k, v) :: vs) = (k, renderS v) :: presentPairs vs := by
        simp [presentPairs, hemp]
      rw [hsl, hpp, List.foldl_cons]
      have hform : k ++ strL " = " ++ escape_value (renderS v) =
          k ++ ' ' :: '=' :: ' ' :: escape_value (renderS v) := by
        rw [show strL " = " = [' ', '=', ' '] from rfl]
        simp
      rw [hform,
        parseLine_kv ⟨cur, tbl⟩ k (escape_value (renderS v)) hk hesc.1 hesc.2.1 hesc.2.2.1]
      dsimp only
      rw [hlook]
      dsimp only
      rw [unescape_escape_no_bs (renderS v) hraw.1]
      have hkfresh : k ∉ sec.map Prod.fst :=
        hfr k (by rw [List.map_cons]; exact List.mem_cons_self _ _)
      rw [insertT_fresh_sec sec k (renderS v) hkfresh]
      have hfr2 : ∀ x ∈ vs.map Prod.fst, x ∉ (sec ++ [(k, renderS v)]).map Prod.fst := by
        intro x hm hmem
        rw [List.map_append] at hmem
        rcases List.mem_append.mp hmem with hc | hc
        · exact hfr x (by simp [hm]) hc
        · have hx : x = k := by simpa using hc
          exact hknotin (hx ▸ hm)
      have ihres := ih cur (insertT tbl cur (sec ++ [(k, renderS v)]))
        (sec ++ [(k, renderS v)]) (lookupT_insertT_self tbl cur _) hnd' hfr2
      rw [ihres, insertT_insertT_same]
      simp

/-- Folding the parser over the section blocks appends one section per
record field, holding its present pairs. -/
theorem parse_blocks (names : List Str) {rtf : List (Str × Ty)} {rvf : List (Str × V)}
    (h : RecFOk rtf rvf) :
    ∀ (cur : Str) (tbl : Table),
      (rvf.map Prod.fst).Nodup →
      (∀ a ∈ rvf.map Prod.fst, a ∉ tbl.map Prod.fst) →
      ∃ cur2, List.foldl parseLine ⟨cur, tbl⟩ (blockLines names rvf) =
        ⟨cur2, tbl ++ rvf.map (fun p => (p.1, presentPairs (recFieldsOf p.2)))⟩ := by
  induction h with
  | nil =>
    intro cur tbl _ _
    exact ⟨cur, by simp [blockLines]⟩
  | cons ha hfa hnd hrest ih =>
    intro cur tbl hndr hfr
    rename_i a na fa ga ts vs
    have hndr' : (vs.map Prod.fst).Nodup := by
      simp only [List.map_cons] at hndr
      exact (List.nodup_cons.mp hndr).2
    have hanotin : a ∉ vs.map Prod.fst := by
      simp only [List.map_cons] at hndr
      exact (List.nodup_cons.mp hndr).1
    have hafresh : a ∉ tbl.map Prod.fst :=
      hfr a (by rw [List.map_cons]; exact List.mem_cons_self _ _)
    rw [blockLines, List.foldl_cons]
    have hstep1 : parseLine ⟨cur, tbl⟩ (('[' :: a) ++ [']']) = ⟨a, insertT tbl a []⟩ :=
      parseLine_header ⟨cur, tbl⟩ a
    rw [hstep1, List.foldl_append]
    have hlook : lookupT (insertT tbl a []) a = some [] := lookupT_insertT_self tbl a []
    have hga_nd : (ga.map Prod.fst).Nodup := by
      rw [← fieldsOk_keys hfa]
      exact hnd
    have hscal := parse_scalars names hfa a (insertT tbl a []) [] hlook hga_nd
      (fun x _ hmem => by simp at hmem)
    rw [show scalarLines names (recFieldsOf (V.record na ga)) = scalarLines names ga from rfl,
      hscal, insertT_insertT_same, List.nil_append,
      insertT_fresh_tbl tbl a (presentPairs ga) hafresh]
    have hfr' : ∀ b ∈ vs.map Prod.fst, b ∉ (tbl ++ [(a, presentPairs ga)]).map Prod.fst := by
      intro b hb hmem
      rw [List.map_append] at hmem
      rcases List.mem_append.mp hmem with hc | hc
      · exact hfr b (by rw [List.map_cons]; exact List.mem_cons_of_mem _ hb) hc
      · have hba : b = a := by simpa using hc
        exact hanotin (hba ▸ hb)
    obtain ⟨cur2, hrest2⟩ := ih a (tbl ++ [(a, presentPairs ga)]) hndr' hfr'
    refine ⟨cur2, ?_⟩
    rw [hrest2, List.map_cons, List.append_assoc]
    rfl

theorem recFOk_plainKeys {rtf : List (Str × Ty)} {rvf : List (Str × V)}
    (h : RecFOk rtf rvf) : ∀ a ∈ rvf.map Prod.fst, plainKey a := by
  induction h with
  | nil =>
    intro a ha
    simp at ha
  | cons ha hfa hnd hrest ih =>
    intro b hb
    rw [List.map_cons] at hb
    rcases List.mem_cons.mp hb with hb | hb
    · exact hb ▸ ha
    · exact ih b hb

/-- Parsing the serializer's two-pass output recovers the root section's
present scalar pairs and one section of present pairs per record
field. -/
theorem parseTable_good {stf : List (Str × Ty)} {svf : List (Str × V)}
    {rtf : List (Str × Ty)} {rvf : List (Str × V)}
    (hs : FieldsOk stf svf) (hr : RecFOk rtf rvf)
    (hndS : (svf.map Prod.fst).Nodup) (hndR : (rvf.map Prod.fst).Nodup) :
    parseTable (chunksOf (rvf.map Prod.fst) svf ++ secBlocks (rvf.map Prod.fst) rvf) =
      ([], presentPairs svf) ::
        rvf.map (fun p => (p.1, presentPairs (recFieldsOf p.2))) := by
  have htext : chunksOf (rvf.map Prod.fst) svf ++ secBlocks (rvf.map Prod.fst) rvf =
      textOf (scalarLines (rvf.map Prod.fst) svf ++ blockLines (rvf.map Prod.fst) rvf) := by
    rw [chunksOf_textOf, secBlocks_textOf, textOf_append]
  have hnl : ∀ l ∈ scalarLines (rvf.map Prod.fst) svf ++ blockLines (rvf.map Prod.fst) rvf,
      '\n' ∉ l := by
    intro l hl
    rcases List.mem_append.mp hl with hl | hl
    · exact scalarLines_no_nl _ hs l hl
    · exact blockLines_no_nl _ hr l hl
  simp only [parseTable]
  rw [htext, linesOf_textOf hnl, List.foldl_append]
  have hlook0 : lookupT [(([] : Str), ([] : Sec))] [] = some [] := by
    simp [lookupT]
  have h1 := parse_scalars (rvf.map Prod.fst) hs [] [([], [])] [] hlook0 hndS
    (fun x _ hmem => by simp at hmem)
  rw [h1]
  have hins : insertT [(([] : Str), ([] : Sec))] [] ([] ++ presentPairs svf) =
      [([], presentPairs svf)] := by
    simp [insertT]
  rw [hins]
  have hfrB : ∀ a ∈ rvf.map Prod.fst, a ∉ [(([] : Str), presentPairs svf)].map Prod.fst := by
    intro a ha hmem
    have hane : a ≠ [] := (recFOk_plainKeys hr a ha).1
    have : a = [] := by simpa using hmem
    exact hane this
  obtain ⟨cur2, h2⟩ := parse_blocks (rvf.map Prod.fst) hr [] [([], presentPairs svf)] hndR hfrB
  rw [h2]
  rfl

theorem fillOneV_skip (e : Str × Str) (done rest : List Slot)
    (h : ∀ s ∈ done, e.1 ≠ s.1) :
    fillOneV e (done ++ rest) = (fillOneV e rest).map fun r => done ++ r := by
  induction done with
  | nil =>
    cases hfr : fillOneV e rest <;> simp [hfr, Except.map]
  | cons s t ih =>
    obtain ⟨k, ty, cur⟩ := s
    have hne : e.1 ≠ k := h (k, ty, cur) (List.mem_cons_self _ _)
    rw [List.cons_append]
    simp only [fillOneV, hne, if_false, reduceIte]
    rw [ih fun s hs => h s (List.mem_cons_of_mem _ hs)]
    cases fillOneV e rest <;> simp [Except.map]

/-- Consuming the present pairs of a well-formed field list through
`StructAccess` fills exactly the present slots. -/
theorem fillVals_V {stf : List (Str × Ty)} {svf : List (Str × V)} (h : FieldsOk stf svf) :
    ∀ done : List Slot,
      (∀ k ∈ svf.map Prod.fst, ∀ s ∈ done, k ≠ s.1) →
      (svf.map Prod.fst).Nodup →
      fillAllV (done ++ initSlots stf) (presentPairs svf) =
        .ok (done ++ scalSlots stf svf) := by
  induction h with
  | nil =>
    intro done _ _
    simp [presentPairs, fillAllV, initSlots, scalSlots]
  | cons hk hf hrest ih =>
    intro done hdone hnd
    rename_i k t v ts vs
    have hnd' : (vs.map Prod.fst).Nodup := by
      simp only [List.map_cons] at hnd
      exact (List.nodup_cons.mp hnd).2
    have hknotin : k ∉ vs.map Prod.fst := by
      simp only [List.map_cons] at hnd
      exact (List.nodup_cons.mp hnd).1
    by_cases hemp : renderS v = []
    · have hpp : presentPairs ((k, v) :: vs) = presentPairs vs := by
        simp [presentPairs, hemp]
      have hss : scalSlots ((k, t) :: ts) ((k, v) :: vs) =
          (k, t, none) :: scalSlots ts vs := by
        rw [show scalSlots ((k, t) :: ts) ((k, v) :: vs) =
          (k, t, if renderS v = [] then none else some v) :: scalSlots ts vs from rfl,
          if_pos hemp]
      rw [hpp, hss]
      have hdone' : ∀ x ∈ vs.map Prod.fst, ∀ s ∈ done ++ [(k, t, (none : Option V))], x ≠ s.1 := by
        intro x hx s hs
        rcases List.mem_append.mp hs with hs | hs
        · exact hdone x (by rw [List.map_cons]; exact List.mem_cons_of_mem _ hx) s hs
        · have hsk : s = (k, t, none) := List.mem_singleton.mp hs
          rw [hsk]
          intro hc
          have hck : x = k := hc
          exact hknotin (hck ▸ hx)
      have := ih (done ++ [(k, t, none)]) hdone' hnd'
      rw [List.append_assoc] at this
      rw [show initSlots ((k, t) :: ts) = (k, t, (none : Option V)) :: initSlots ts from rfl]
      simpa using this
    · have hpp : presentPairs ((k, v) :: vs) = (k, renderS v) :: presentPairs vs := by
        simp [presentPairs, hemp]
      have hss : scalSlots ((k, t) :: ts) ((k, v) :: vs) =
          (k, t, some v) :: scalSlots ts vs := by
        rw [show scalSlots ((k, t) :: ts) ((k, v) :: vs) =
          (k, t, if renderS v = [] then none else some v) :: scalSlots ts vs from rfl,
          if_neg hemp]
      rw [hpp, hss,
        show initSlots ((k, t) :: ts) = (k, t, (none : Option V)) :: initSlots ts from rfl]
      rw [fillAllV]
      have hkd : ∀ s ∈ done, ((k, renderS v) : Str × Str).1 ≠ s.1 := fun s hs =>
        hdone k (by rw [List.map_cons]; exact List.mem_cons_self _ _) s hs
      rw [fillOneV_skip (k, renderS v) done ((k, t, none) :: initSlots ts) hkd]
      have hhead : fillOneV (k, renderS v) ((k, t, none) :: initSlots ts) =
          .ok ((k, t, some v) :: initSlots ts) := by
        simp only [fillOneV, if_pos rfl]
        rw [fldOk_present_coerce hf hemp]
        rfl
      rw [hhead]
      simp only [Except.map]
      have hdone' : ∀ x ∈ vs.map Prod.fst, ∀ s ∈ done ++ [(k, t, some v)], x ≠ s.1 := by
        intro x hx s hs
        rcases List.mem_append.mp hs with hs | hs
        · exact hdone x (by rw [List.map_cons]; exact List.mem_cons_of_mem _ hx) s hs
        · have hsk : s = (k, t, some v) := List.mem_singleton.mp hs
          rw [hsk]
          intro hc
          have hck : x = k := hc
          exact hknotin (hck ▸ hx)
      have := ih (done ++ [(k, t, some v)]) hdone' hnd'
      rw [List.append_assoc] at this
      simpa using this

theorem finalizeSlots_append {xs ys : List Slot} {as2 bs : List (Str × V)}
    (hx : finalizeSlots xs = .ok as2) (hy : finalizeSlots ys = .ok bs) :
    finalizeSlots (xs ++ ys) = .ok (as2 ++ bs) := by
  induction xs generalizing as2 with
  | nil =>
    have has : as2 = [] := by
      have := Except.ok.inj hx
      exact this.symm
    subst has
    simpa using hy
  | cons s t ih =>
    obtain ⟨k, ty, cur⟩ := s
    cases cur with
    | some v =>
      rw [show finalizeSlots ((k, ty, some v) :: t) =
        (finalizeSlots t).map fun r => (k, v) :: r from rfl] at hx
      cases hft : finalizeSlots t with
      | error e =>
        rw [hft] at hx
        exact Except.noConfusion hx
      | ok as1 =>
        rw [hft] at hx
        have has : as2 = (k, v) :: as1 := (Except.ok.inj hx).symm
        subst has
        rw [List.cons_append,
          show finalizeSlots ((k, ty, some v) :: (t ++ ys)) =
            (finalizeSlots (t ++ ys)).map fun r => (k, v) :: r from rfl,
          ih hft]
        rfl
    | none =>
      cases ty with
      | opt t0 =>
        rw [show finalizeSlots ((k, Ty.opt t0, (none : Option V)) :: t) =
          (finalizeSlots t).map fun r => (k, V.opt none) :: r from rfl] at hx
        cases hft : finalizeSlots t with
        | error e =>
          rw [hft] at hx
          exact Except.noConfusion hx
        | ok as1 =>
          rw [hft] at hx
          have has : as2 = (k, V.opt none) :: as1 := (Except.ok.inj hx).symm
          subst has
          rw [List.cons_append,
            show finalizeSlots ((k, Ty.opt t0, (none : Option V)) :: (t ++ ys)) =
              (finalizeSlots (t ++ ys)).map fun r => (k, V.opt none) :: r from rfl,
            ih hft]
          rfl
      | bool => exact Except.noConfusion hx
      | int => exact Except.noConfusion hx
      | str => exact Except.noConfusion hx
      | char => exact Except.noConfusion hx
      | record n fs => exact Except.noConfusion hx

theorem finalize_scalSlots {stf : List (Str × Ty)} {svf : List (Str × V)}
    (h : FieldsOk stf svf) : finalizeSlots (scalSlots stf svf) = .ok svf := by
  induction h with
  | nil => rfl
  | cons hk hf hrest ih =>
    rename_i k t v ts vs
    by_cases hemp : renderS v = []
    · obtain ⟨⟨t0, ht⟩, hv⟩ := fldOk_absent hf hemp
      subst ht
      have hss : scalSlots ((k, Ty.opt t0) :: ts) ((k, v) :: vs) =
          (k, Ty.opt t0, none) :: scalSlots ts vs := by
        rw [show scalSlots ((k, Ty.opt t0) :: ts) ((k, v) :: vs) =
          (k, Ty.opt t0, if renderS v = [] then none else some v) :: scalSlots ts vs from rfl,
          if_pos hemp]
      rw [hss,
        show finalizeSlots ((k, Ty.opt t0, (none : Option V)) :: scalSlots ts vs) =
          (finalizeSlots (scalSlots ts vs)).map fun r => (k, V.opt none) :: r from rfl,
        ih]
      rw [hv]
      rfl
    · have hss : scalSlots ((k, t) :: ts) ((k, v) :: vs) =
          (k, t, some v) :: scalSlots ts vs := by
        rw [show scalSlots ((k, t) :: ts) ((k, v) :: vs) =
          (k, t, if renderS v = [] then none else some v) :: scalSlots ts vs from rfl,
          if_neg hemp]
      rw [hss,
        show finalizeSlots ((k, t, some v) :: scalSlots ts vs) =
          (finalizeSlots (scalSlots ts vs)).map fun r => (k, v) :: r from rfl,
        ih]
      rfl

/-- Decoding one section's present pairs against its declared fields
returns the original field values. -/
theorem decodeSection_good {fa : List (Str × Ty)} {ga : List (Str × V)}
    (h : FieldsOk fa ga) (hnd : (ga.map Prod.fst).Nodup) :
    decodeSectionFields fa (presentPairs ga) = .ok ga := by
  have hfill := fillVals_V h [] (fun k _ s hs => absurd hs (List.not_mem_nil s)) hnd
  rw [List.nil_append, List.nil_append] at hfill
  rw [decodeSectionFields, hfill]
  exact finalize_scalSlots h

theorem fillOneR_skip (tbl : Table) (e : Entry) (done rest : List Slot)
    (h : ∀ s ∈ done, e.key ≠ s.1) :
    fillOneR tbl e (done ++ rest) = (fillOneR tbl e rest).map fun r => done ++ r := by
  induction done with
  | nil =>
    cases hfr : fillOneR tbl e rest <;> simp [hfr, Except.map]
  | cons s t ih =>
    obtain ⟨k, ty, cur⟩ := s
    have hne : e.key ≠ k := h (k, ty, cur) (List.mem_cons_self _ _)
    rw [List.cons_append]
    simp only [fillOneR, hne, if_false, reduceIte]
    rw [ih fun s hs => h s (List.mem_cons_of_mem _ hs)]
    cases fillOneR tbl e rest <;> simp [Except.map]

theorem fillAllR_append (tbl : Table) (slots : List Slot) (es1 es2 : List Entry) :
    fillAllR tbl slots (es1 ++ es2) =
      (match fillAllR tbl slots es1 with
       | .error er => .error er
       | .ok s1 => fillAllR tbl s1 es2) := by
  induction es1 generalizing slots with
  | nil => rfl
  | cons e es ih =>
    rw [List.cons_append,
      show fillAllR tbl slots (e :: (es ++ es2)) =
        (match fillOneR tbl e slots with
         | .error er => .error er
         | .ok slots1 => fillAllR tbl slots1 (es ++ es2)) from rfl,
      show fillAllR tbl slots (e :: es) =
        (match fillOneR tbl e slots with
         | .error er => .error er
         | .ok slots1 => fillAllR tbl slots1 es) from rfl]
    cases hf : fillOneR tbl e slots with
    | error er => rfl
    | ok s1 =>
      dsimp only
      exact ih s1

/-- Consuming the root section's present pairs through `RootStructAccess`
fills exactly the present scalar slots, leaving the trailing slots
untouched. -/
theorem fillVals_R (tbl : Table) {stf : List (Str × Ty)} {svf : List (Str × V)}
    (h : FieldsOk stf svf) :
    ∀ (done tail : List Slot),
      (∀ k ∈ svf.map Prod.fst, ∀ s ∈ done, k ≠ s.1) →
      (∀ k ∈ svf.map Prod.fst, ∀ s ∈ tail, k ≠ s.1) →
      (svf.map Prod.fst).Nodup →
      fillAllR tbl (done ++ initSlots stf ++ tail)
          ((presentPairs svf).map fun kv => Entry.val kv.1 kv.2) =
        .ok (done ++ scalSlots stf svf ++ tail) := by
  induction h with
  | nil =>
    intro done tail _ _ _
    simp [presentPairs, fillAllR, initSlots, scalSlots]
  | cons hk hf hrest ih =>
    intro done tail hdone htail hnd
    rename_i k t v ts vs
    have hnd' : (vs.map Prod.fst).Nodup := by
      simp only [List.map_cons] at hnd
      exact (List.nodup_cons.mp hnd).2
    have hknotin : k ∉ vs.map Prod.fst := by
      simp only [List.map_cons] at hnd
      exact (List.nodup_cons.mp hnd).1
    have hmemk : k ∈ ((k, v) :: vs).map Prod.fst := by
      rw [List.map_cons]
      exact List.mem_cons_self _ _
    have htail' : ∀ x ∈ vs.map Prod.fst, ∀ s ∈ tail, x ≠ s.1 := fun x hx =>
      htail x (by rw [List.map_cons]; exact List.mem_cons_of_mem _ hx)
    by_cases hemp : renderS v = []
    · have hpp : presentPairs ((k, v) :: vs) = presentPairs vs := by
        simp [presentPairs, hemp]
      have hss : scalSlots ((k, t) :: ts) ((k, v) :: vs) =
          (k, t, none) :: scalSlots ts vs := by
        rw [show scalSlots ((k, t) :: ts) ((k, v) :: vs) =
          (k, t, if renderS v = [] then none else some v) :: scalSlots ts vs from rfl,
          if_pos hemp]
      rw [hpp, hss]
      have hdone' : ∀ x ∈ vs.map Prod.fst, ∀ s ∈ done ++ [(k, t, (none : Option V))],
          x ≠ s.1 := by
        intro x hx s hs
        rcases List.mem_append.mp hs with hs | hs
        · exact hdone x (by rw [List.map_cons]; exact List.mem_cons_of_mem _ hx) s hs
        · have hsk : s = (k, t, none) := List.mem_singleton.mp hs
          rw [hsk]
          intro hc
          have hck : x = k := hc
          exact hknotin (hck ▸ hx)
      have := ih (done ++ [(k, t, none)]) tail hdone' htail' hnd'
      rw [List.append_assoc done [(k, t, none)] (initSlots ts),
        List.append_assoc done [(k, t, none)] (scalSlots ts vs)] at this
      rw [show initSlots ((k, t) :: ts) = (k, t, (none : Option V)) :: initSlots ts from rfl]
      simpa using this
    · have hpp : presentPairs ((k, v) :: vs) = (k, renderS v) :: presentPairs vs := by
        simp [presentPairs, hemp]
      have hss : scalSlots ((k, t) :: ts) ((k, v) :: vs) =
          (k, t, some v) :: scalSlots ts vs := by
        rw [show scalSlots ((k, t) :: ts) ((k, v) :: vs) =
          (k, t, if renderS v = [] then none else some v) :: scalSlots ts vs from rfl,
          if_neg hemp]
      rw [hpp, hss,
        show initSlots ((k, t) :: ts) = (k, t, (none : Option V)) :: initSlots ts from rfl,
        List.map_cons, fillAllR]
      have hkd : ∀ s ∈ done, (Entry.val k (renderS v)).key ≠ s.1 := fun s hs =>
        hdone k hmemk s hs
      rw [show done ++ ((k, t, (none : Option V)) :: initSlots ts) ++ tail =
        done ++ ((k, t, (none : Option V)) :: (initSlots ts ++ tail)) by simp,
        fillOneR_skip tbl (Entry.val k (renderS v)) done
          ((k, t, none) :: (initSlots ts ++ tail)) hkd]
      have hhead : fillOneR tbl (Entry.val k (renderS v))
          ((k, t, none) :: (initSlots ts ++ tail)) =
          .ok ((k, t, some v) :: (initSlots ts ++ tail)) := by
        simp only [fillOneR, Entry.key, if_pos rfl]
        rw [show decodeEntry tbl t (Entry.val k (renderS v)) = coerce t (renderS v) from rfl,
          fldOk_present_coerce hf hemp]
        rfl
      rw [hhead]
      simp only [Except.map]
      have hdone' : ∀ x ∈ vs.map Prod.fst, ∀ s ∈ done ++ [(k, t, some v)], x ≠ s.1 := by
        intro x hx s hs
        rcases List.mem_append.mp hs with hs | hs
        · exact hdone x (by rw [List.map_cons]; exact List.mem_cons_of_mem _ hx) s hs
        · have hsk : s = (k, t, some v) := List.mem_singleton.mp hs
          rw [hsk]
          intro hc
          have hck : x = k := hc
          exact hknotin (hck ▸ hx)
      have := ih (done ++ [(k, t, some v)]) tail hdone' htail' hnd'
      rw [List.append_assoc done [(k, t, some v)] (initSlots ts),
        List.append_assoc done [(k, t, some v)] (scalSlots ts vs)] at this
      simpa using this

theorem finalize_filledSlots {rtf : List (Str × Ty)} {rvf : List (Str × V)}
    (h : RecFOk rtf rvf) : finalizeSlots (filledSlots rtf rvf) = .ok rvf := by
  induction h with
  | nil => rfl
  | cons ha hfa hnd hrest ih =>
    rename_i a na fa ga ts vs
    rw [show filledSlots ((a, Ty.record na fa) :: ts) ((a, V.record na ga) :: vs) =
      (a, Ty.record na fa, some (V.record na ga)) :: filledSlots ts vs from rfl,
      show finalizeSlots ((a, Ty.record na fa, some (V.record na ga)) :: filledSlots ts vs) =
        (finalizeSlots (filledSlots ts vs)).map fun r => (a, V.record na ga) :: r from rfl,
      ih]
    rfl

theorem scalSlots_fst {stf : List (Str × Ty)} {svf : List (Str × V)}
    (h : FieldsOk stf svf) : ∀ s ∈ scalSlots stf svf, s.1 ∈ stf.map Prod.fst := by
  induction h with
  | nil =>
    intro s hs
    simp [scalSlots] at hs
  | cons hk hf hrest ih =>
    intro s hs
    rename_i k t v ts vs
    rw [show scalSlots ((k, t) :: ts) ((k, v) :: vs) =
      (k, t, if renderS v = [] then none else some v) :: scalSlots ts vs from rfl] at hs
    rw [List.map_cons]
    rcases List.mem_cons.mp hs with hs | hs
    · rw [hs]
      exact List.mem_cons_self _ _
    · exact List.mem_cons_of_mem _ (ih s hs)

theorem lookupT_map_of_mem (l : List (Str × V)) (g : Str × V → Sec)
    (hnd : (l.map Prod.fst).Nodup) :
    ∀ p ∈ l, lookupT (l.map fun q => (q.1, g q)) p.1 = some (g p) := by
  induction l with
  | nil =>
    intro p hp
    exact absurd hp (List.not_mem_nil p)
  | cons q rest ih =>
    intro p hp
    have hnd' : (rest.map Prod.fst).Nodup := by
      simp only [List.map_cons] at hnd
      exact (List.nodup_cons.mp hnd).2
    have hqnotin : q.1 ∉ rest.map Prod.fst := by
      simp only [List.map_cons] at hnd
      exact (List.nodup_cons.mp hnd).1
    rw [List.map_cons]
    rcases List.mem_cons.mp hp with hp | hp
    · subst hp
      rw [show lookupT ((p.1, g p) :: rest.map fun q => (q.1, g q)) p.1 =
        (if p.1 = p.1 then some (g p) else lookupT (rest.map fun q => (q.1, g q)) p.1)
        from rfl, if_pos rfl]
    · have hne : q.1 ≠ p.1 := by
        intro he
        exact hqnotin (he ▸ List.mem_map_of_mem Prod.fst hp)
      rw [show lookupT ((q.1, g q) :: rest.map fun q => (q.1, g q)) p.1 =
        (if q.1 = p.1 then some (g q) else lookupT (rest.map fun q => (q.1, g q)) p.1)
        from rfl, if_neg hne]
      exact ih hnd' p hp

theorem filter_map_secs (rvf : List (Str × V))
    (hne : ∀ a ∈ rvf.map Prod.fst, a ≠ []) :
    ((rvf.map fun p => (p.1, presentPairs (recFieldsOf p.2))).filter fun p => p.1 ≠ []).map
      (fun p => Entry.sec p.1) = (rvf.map Prod.fst).map Entry.sec := by
  induction rvf with
  | nil => rfl
  | cons q rest ih =>
    have hq : decide ((q.1, presentPairs (recFieldsOf q.2)).1 ≠ []) = true := by
      simp only [decide_eq_true_eq]
      exact hne q.1 (by rw [List.map_cons]; exact List.mem_cons_self _ _)
    rw [List.map_cons, List.filter_cons, hq]
    simp only [reduceIte]
    rw [List.map_cons, List.map_cons, List.map_cons]
    congr 1
    exact ih fun a ha => hne a (by rw [List.map_cons]; exact List.mem_cons_of_mem _ ha)

theorem rootEntries_good (x : Sec) (rvf : List (Str × V))
    (hne : ∀ a ∈ rvf.map Prod.fst, a ≠ []) :
    rootEntries (([], x) :: rvf.map fun p => (p.1, presentPairs (recFieldsOf p.2))) =
      x.map (fun kv => Entry.val kv.1 kv.2) ++ (rvf.map Prod.fst).map Entry.sec := by
  rw [rootEntries]
  have hlook : lookupT ((([] : Str), x) :: rvf.map fun p =>
      (p.1, presentPairs (recFieldsOf p.2))) [] = some x := by
    rw [show lookupT ((([] : Str), x) :: rvf.map fun p => (p.1, presentPairs (recFieldsOf p.2))) [] =
      (if ([] : Str) = [] then some x
       else lookupT (rvf.map fun p => (p.1, presentPairs (recFieldsOf p.2))) []) from rfl,
      if_pos rfl]
  rw [hlook]
  congr 1
  have hroot : decide ((([] : Str), x).1 ≠ []) = false := by
    simp
  rw [show ((([] : Str), x) :: rvf.map fun p => (p.1, presentPairs (recFieldsOf p.2))).filter
      (fun p => p.1 ≠ []) =
    (if ((([] : Str), x).1 ≠ [] : Bool) then
      (([] : Str), x) :: (rvf.map fun p => (p.1, presentPairs (recFieldsOf p.2))).filter
        (fun p => p.1 ≠ [])
     else (rvf.map fun p => (p.1, presentPairs (recFieldsOf p.2))).filter
        (fun p => p.1 ≠ [])) from List.filter_cons, hroot]
  simp only [Bool.false_eq_true, if_false, reduceIte]
  exact filter_map_secs rvf hne

/-- Consuming the section entries through `RootStructAccess` decodes each
record field's section and fills its slot. -/
theorem fillSecs (tbl : Table) {rtf : List (Str × Ty)} {rvf : List (Str × V)}
    (h : RecFOk rtf rvf) :
    ∀ done : List Slot,
      (∀ a ∈ rvf.map Prod.fst, ∀ s ∈ done, a ≠ s.1) →
      (rvf.map Prod.fst).Nodup →
      (∀ p ∈ rvf, lookupT tbl p.1 = some (presentPairs (recFieldsOf p.2))) →
      fillAllR tbl (done ++ initSlots rtf) ((rvf.map Prod.fst).map Entry.sec) =
        .ok (done ++ filledSlots rtf rvf) := by
  induction h with
  | nil =>
    intro done _ _ _
    simp [fillAllR, initSlots, filledSlots]
  | cons ha hfa hnd hrest ih =>
    intro done hdone hndr hlook
    rename_i a na fa ga ts vs
    have hndr' : (vs.map Prod.fst).Nodup := by
      simp only [List.map_cons] at hndr
      exact (List.nodup_cons.mp hndr).2
    have hanotin : a ∉ vs.map Prod.fst := by
      simp only [List.map_cons] at hndr
      exact (List.nodup_cons.mp hndr).1
    have hmema : a ∈ ((a, V.record na ga) :: vs).map Prod.fst := by
      rw [List.map_cons]
      exact List.mem_cons_self _ _
    rw [List.map_cons, List.map_cons,
      show initSlots ((a, Ty.record na fa) :: ts) =
        (a, Ty.record na fa, (none : Option V)) :: initSlots ts from rfl,
      show filledSlots ((a, Ty.record na fa) :: ts) ((a, V.record na ga) :: vs) =
        (a, Ty.record na fa, some (V.record na ga)) :: filledSlots ts vs from rfl,
      show fillAllR tbl (done ++ (a, Ty.record na fa, (none : Option V)) :: initSlots ts)
          (Entry.sec a :: (vs.map Prod.fst).map Entry.sec) =
        (match fillOneR tbl (Entry.sec a)
            (done ++ (a, Ty.record na fa, (none : Option V)) :: initSlots ts) with
         | .error er => .error er
         | .ok slots1 => fillAllR tbl slots1 ((vs.map Prod.fst).map Entry.sec)) from rfl]
    have hkd : ∀ s ∈ done, (Entry.sec a).key ≠ s.1 := fun s hs => hdone a hmema s hs
    rw [fillOneR_skip tbl (Entry.sec a) done
      ((a, Ty.record na fa, none) :: initSlots ts) hkd]
    have hga_nd : (ga.map Prod.fst).Nodup := by
      rw [← fieldsOk_keys hfa]
      exact hnd
    have hlooka : lookupT tbl a = some (presentPairs ga) :=
      hlook (a, V.record na ga) (List.mem_cons_self _ _)
    have hhead : fillOneR tbl (Entry.sec a)
        ((a, Ty.record na fa, none) :: initSlots ts) =
        .ok ((a, Ty.record na fa, some (V.record na ga)) :: initSlots ts) := by
      simp only [fillOneR, Entry.key, if_pos rfl]
      rw [show decodeEntry tbl (Ty.record na fa) (Entry.sec a) =
        (decodeSectionFields fa ((lookupT tbl a).getD [])).map fun fields =>
          V.record na fields from rfl, hlooka,
        show (some (presentPairs ga)).getD [] = presentPairs ga from rfl,
        decodeSection_good hfa hga_nd]
      rfl
    rw [hhead]
    simp only [Except.map]
    have hdone' : ∀ b ∈ vs.map Prod.fst,
        ∀ s ∈ done ++ [(a, Ty.record na fa, some (V.record na ga))], b ≠ s.1 := by
      intro b hb s hs
      rcases List.mem_append.mp hs with hs | hs
      · exact hdone b (by rw [List.map_cons]; exact List.mem_cons_of_mem _ hb) s hs
      · have hsk : s = (a, Ty.record na fa, some (V.record na ga)) :=
          List.mem_singleton.mp hs
        rw [hsk]
        intro hc
        have hck : b = a := hc
        exact hanotin (hck ▸ hb)
    have hlook' : ∀ p ∈ vs, lookupT tbl p.1 = some (presentPairs (recFieldsOf p.2)) :=
      fun p hp => hlook p (List.mem_cons_of_mem _ hp)
    have := ih (done ++ [(a, Ty.record na fa, some (V.record na ga))]) hdone' hndr' hlook'
    rw [List.append_assoc done [(a, Ty.record na fa, some (V.record na ga))] (initSlots ts),
      List.append_assoc done [(a, Ty.record na fa, some (V.record na ga))]
        (filledSlots ts vs)] at this
    simpa using this

/-- Decoding the parsed table through the root-composite reading returns
the original scalar and record field values, in order. -/
theorem decodeRoot_good {stf : List (Str × Ty)} {svf : List (Str × V)}
    {rtf : List (Str × Ty)} {rvf : List (Str × V)}
    (hs : FieldsOk stf svf) (hr : RecFOk rtf rvf)
    (hndS : (svf.map Prod.fst).Nodup) (hndR : (rvf.map Prod.fst).Nodup)
    (hdisj1 : ∀ k ∈ svf.map Prod.fst, k ∉ rtf.map Prod.fst)
    (hdisj2 : ∀ a ∈ rvf.map Prod.fst, a ∉ stf.map Prod.fst) :
    decodeRootFields
      (([], presentPairs svf) :: rvf.map fun p => (p.1, presentPairs (recFieldsOf p.2)))
      (stf ++ rtf) = .ok (svf ++ rvf) := by
  have hnames : ∀ a ∈ rvf.map Prod.fst, a ≠ [] := fun a ha =>
    (recFOk_plainKeys hr a ha).1
  have hents := rootEntries_good (presentPairs svf) rvf hnames
  have hinit : initSlots (stf ++ rtf) = initSlots stf ++ initSlots rtf := by
    simp [initSlots]
  rw [decodeRootFields, hents, hinit, fillAllR_append]
  have htail : ∀ k ∈ svf.map Prod.fst, ∀ s ∈ initSlots rtf, k ≠ s.1 := by
    intro k hk s hsm
    intro hc
    have : s.1 ∈ rtf.map Prod.fst := by
      rcases List.mem_map.mp hsm with ⟨kt, hkt, hrfl⟩
      rw [← hrfl]
      exact List.mem_map_of_mem Prod.fst hkt
    exact hdisj1 k hk (hc ▸ this)
  have hvals := fillVals_R
    (([], presentPairs svf) :: rvf.map fun p => (p.1, presentPairs (recFieldsOf p.2)))
    hs [] (initSlots rtf) (fun k _ s hsm => absurd hsm (List.not_mem_nil s)) htail hndS
  rw [List.nil_append, List.nil_append] at hvals
  rw [hvals]
  have hdone : ∀ a ∈ rvf.map Prod.fst, ∀ s ∈ scalSlots stf svf, a ≠ s.1 := by
    intro a ha s hsm hc
    exact hdisj2 a ha (hc ▸ scalSlots_fst hs s hsm)
  have hlook : ∀ p ∈ rvf,
      lookupT (([], presentPairs svf) ::
          rvf.map fun q => (q.1, presentPairs (recFieldsOf q.2))) p.1 =
        some (presentPairs (recFieldsOf p.2)) := by
    intro p hp
    have hpne : p.1 ≠ [] := hnames p.1 (List.mem_map_of_mem Prod.fst hp)
    rw [show lookupT ((([] : Str), presentPairs svf) ::
        rvf.map fun q => (q.1, presentPairs (recFieldsOf q.2))) p.1 =
      (if ([] : Str) = p.1 then some (presentPairs svf)
       else lookupT (rvf.map fun q => (q.1, presentPairs (recFieldsOf q.2))) p.1)
      from rfl, if_neg (fun he => hpne he.symm)]
    exact lookupT_map_of_mem rvf (fun q => presentPairs (recFieldsOf q.2)) hndR p hp
  have hsecs := fillSecs
    (([], presentPairs svf) :: rvf.map fun p => (p.1, presentPairs (recFieldsOf p.2)))
    hr (scalSlots stf svf) hdone hndR hlook
  dsimp only
  rw [hsecs]
  exact finalizeSlots_append (finalize_scalSlots hs) (finalize_filledSlots hr)

theorem decodeTop_record (tbl : Table) (n : Str) (fs : List (Str × Ty)) :
    decodeTop tbl (Ty.record n fs) =
      (match chooseReading tbl n with
       | .rootComposite => decodeRootFields tbl fs
       | .single s => decodeSectionFields fs ((lookupT tbl s).getD [])).map
        fun fields => V.record n fields := rfl

theorem recFOk_nil_right {rtf : List (Str × Ty)} (h : RecFOk rtf []) : rtf = [] := by
  cases h
  rfl

theorem map_fst_secs (rvf : List (Str × V)) :
    (rvf.map fun p => (p.1, presentPairs (recFieldsOf p.2))).map Prod.fst =
      rvf.map Prod.fst := by
  induction rvf with
  | nil => rfl
  | cons q rest ih => rw [List.map_cons, List.map_cons, List.map_cons, ih]

/-- C1 amended: the encode/decode round trip holds for two-level records
whose scalar fields are declared before the record fields, have plain
distinct keys, and hold round-trippable scalars (the `FieldsOk`/`RecFOk`
invariants: booleans, i64-range integers, and nonempty backslash-free
strings and single-byte non-backslash chars whose edge characters are
either not Unicode whitespace or one of the escaped controls, so they
survive the parser's `str::trim` and the byte-length check of
`deserialize_char`), with the target name either empty or distinct from
every record field's name.  (The counterexample `c1_counterexample`
shows the unrestricted claim fails: a required field rendering empty is
encoded as a commented placeholder and decodes to a missing-field
error.) -/
theorem c1_amended_roundtrip {n : Str} {stf rtf : List (Str × Ty)}
    {svf rvf : List (Str × V)}
    (hs : FieldsOk stf svf) (hr : RecFOk rtf rvf)
    (hnd : (stf.map Prod.fst ++ rtf.map Prod.fst).Nodup)
    (hn : n = [] ∨ n ∉ rtf.map Prod.fst) :
    ∃ out, to_string (V.record n (svf ++ rvf)) = .ok out ∧
      from_str out (Ty.record n (stf ++ rtf)) = .ok (V.record n (svf ++ rvf)) := by
  obtain ⟨hndSt, hndRt, hdisjT⟩ := List.nodup_append.mp hnd
  have hndSv : (svf.map Prod.fst).Nodup := by
    rw [← fieldsOk_keys hs]
    exact hndSt
  have hndRv : (rvf.map Prod.fst).Nodup := by
    rw [← recFOk_keys hr]
    exact hndRt
  have hdisj1 : ∀ k ∈ svf.map Prod.fst, k ∉ rtf.map Prod.fst := by
    intro k hk
    rw [← fieldsOk_keys hs] at hk
    exact fun hm => hdisjT hk hm
  have hdisj2 : ∀ a ∈ rvf.map Prod.fst, a ∉ stf.map Prod.fst := by
    intro a ha
    rw [← recFOk_keys hr] at ha
    exact fun hm => hdisjT hm ha
  refine ⟨_, to_string_good n hs hr, ?_⟩
  rw [from_str, parseTable_good hs hr hndSv hndRv, decodeTop_record]
  by_cases hrv : rvf = []
  · subst hrv
    have hrt : rtf = [] := recFOk_nil_right hr
    subst hrt
    rw [List.append_nil, List.append_nil]
    have hroot : decodeRootFields [([], presentPairs svf)] stf = .ok svf := by
      have hres := decodeRoot_good hs RecFOk.nil hndSv (by simp)
        (fun k hk hm => by simp at hm) (fun a ha => by simp at ha)
      simpa using hres
    show (match chooseReading [([], presentPairs svf)] n with
         | .rootComposite => decodeRootFields [([], presentPairs svf)] stf
         | .single s =>
            decodeSectionFields stf ((lookupT [([], presentPairs svf)] s).getD [])).map
        (fun fields => V.record n fields) = .ok (V.record n svf)
    by_cases hne : n = []
    · subst hne
      rw [show chooseReading [([], presentPairs svf)] [] = .rootComposite by
        rw [chooseReading, if_pos (Or.inl rfl), if_pos rfl]]
      dsimp only
      rw [hroot]
      rfl
    · have hcont : ¬ containsT [([], presentPairs svf)] n = true := by
        intro hct
        rw [containsT_iff_mem_keys] at hct
        have : n = [] := by simpa using hct
        exact hne this
      have hcontr : containsT [([], presentPairs svf)] [] = true := by
        rw [containsT_iff_mem_keys]
        simp
      rw [show chooseReading [([], presentPairs svf)] n = .single [] by
        rw [chooseReading, if_neg (fun hc => hc.elim hne hcont),
          if_neg (fun hc => by
            rcases hc with hc | hc
            · simp at hc
            · exact hc.2 hcontr)]]
      dsimp only
      rw [show (lookupT [(([] : Str), presentPairs svf)] []).getD [] = presentPairs svf
        from rfl, decodeSection_good hs hndSv]
      rfl
  · have hlen : (([], presentPairs svf) ::
        rvf.map fun p => (p.1, presentPairs (recFieldsOf p.2))).length > 1 := by
      simp only [List.length_cons, List.length_map]
      cases rvf with
      | nil => exact absurd rfl hrv
      | cons q rest => simp
    have hread : chooseReading
        (([], presentPairs svf) :: rvf.map fun p => (p.1, presentPairs (recFieldsOf p.2))) n =
        .rootComposite := by
      by_cases hne : n = []
      · subst hne
        rw [chooseReading, if_pos (Or.inl rfl), if_pos rfl]
      · have hnR : n ∉ rvf.map Prod.fst := by
          rcases hn with hn | hn
          · exact absurd hn hne
          · rw [← recFOk_keys hr]
            exact hn
        have hcont : ¬ containsT
            (([], presentPairs svf) :: rvf.map fun p => (p.1, presentPairs (recFieldsOf p.2))) n
            = true := by
          intro hct
          rw [containsT_iff_mem_keys, List.map_cons, map_fst_secs] at hct
          rcases List.mem_cons.mp hct with hc | hc
          · exact hne hc
          · exact hnR hc
        rw [chooseReading, if_neg (fun hc => hc.elim hne hcont), if_pos (Or.inl hlen)]
    rw [hread, decodeRoot_good hs hr hndSv hndRv hdisj1 hdisj2]
    rfl

theorem c1_amended_witness :
    ∃ out,
      to_string (V.record (strL "Config")
        ([(strL "name", V.str (strL "App")), (strL "port", V.int 8080),
          (strL "debug", V.opt none)] ++
         [(strL "db", V.record (strL "Db") [(strL "host", V.str (strL "localhost"))])])) =
        .ok out ∧
      from_str out (Ty.record (strL "Config")
        ([(strL "name", Ty.str), (strL "port", Ty.int), (strL "debug", Ty.opt Ty.bool)] ++
         [(strL "db", Ty.record (strL "Db") [(strL "host", Ty.str)])])) =
        .ok (V.record (strL "Config")
          ([(strL "name", V.str (strL "App")), (strL "port", V.int 8080),
            (strL "debug", V.opt none)] ++
           [(strL "db", V.record (strL "Db") [(strL "host", V.str (strL "localhost"))])])) :=
  c1_amended_roundtrip
    (FieldsOk.cons (And.intro (by decide) (by decide))
      (FldOk.scal (ScalOk.str _ (by decide) (by decide) (by decide) (by decide)))
      (FieldsOk.cons (And.intro (by decide) (by decide))
        (FldOk.scal (ScalOk.int 8080 (by decide) (by decide)))
        (FieldsOk.cons (And.intro (by decide) (by decide))
          (FldOk.optNone Ty.bool) FieldsOk.nil)))
    (RecFOk.cons (And.intro (by decide) (by decide))
      (FieldsOk.cons (And.intro (by decide) (by decide))
        (FldOk.scal (ScalOk.str _ (by decide) (by decide) (by decide) (by decide)))
        FieldsOk.nil)
      (by decide) RecFOk.nil)
    (by decide)
    (Or.inr (by decide))
